import Mathlib

/-!
The package ttlcache: a map of items that expire once stale.

Shallow embedding of `cache.go` and `item.go`.

* Instants (`time.Time`) and durations (`time.Duration`) are integers counted in
  nanoseconds; `time.Now()` is the explicit argument `now` of every operation that
  reads the clock, and `Time.Add` / `Time.Before` are `+` and `<`. An operation happens
  at one instant: all its readings of the clock give the same `now`.
* The map `items map[string]*Item` is an association list with pairwise distinct keys;
  the order of the list stands for the (unspecified) order in which `range` visits
  the map.
* A value of type `interface{}` is a `Value`: `nil`, a string, or any other payload.
* An `EvictCallback` is an opaque name of type `κ`; calling it is recorded as an
  `Event` in the trace that the operation returns. A callback runs while the mutex of
  the cache is held, so it cannot itself operate on the cache.
* The hit counter is a `uint64`: a natural number incremented modulo `2 ^ 64`.
* A run-time panic (nil pointer dereference) is the result `none`.
* The mutexes only serialise the operations and are not represented.
* The goroutine started by `startCleanupTimer` is a ticker of fixed period: it runs one
  `cleanup` at each of the instants `born + period`, `born + 2 * period`, ...
-/

namespace TTLCache

/-- Dynamic content of a Go `interface{}`. -/
inductive Value (α : Type) where
  | nil : Value α
  | str (s : String) : Value α
  | other (a : α) : Value α
  deriving DecidableEq, Repr

/-- The zero value of the type `interface{}`. -/
def Value.zero {α : Type} : Value α := Value.nil

/-- One call `cb(key, data)` of an eviction callback. -/
structure Event (α κ : Type) where
  cb : κ
  key : String
  data : Value α
  deriving DecidableEq, Repr

/-- Record in the cache map (`type Item struct`); `expires = none` is the nil pointer. -/
structure Item (α κ : Type) where
  data : Value α
  expires : Option Int
  ttl : Int
  on_evict : Option κ
  deriving DecidableEq, Repr

/-- `item.touch()`: `expires = now + ttl`. -/
def Item.touch {α κ : Type} (item : Item α κ) (now : Int) : Item α κ :=
  { item with expires := some (now + item.ttl) }

/-- `item.expired()`: true when `expires` is nil, else `expires.Before(now)`. -/
def Item.expired {α κ : Type} (item : Item α κ) (now : Int) : Bool :=
  match item.expires with
  | none => true
  | some e => decide (e < now)

/-- The finite map `map[string]*Item`. -/
abbrev Items (α κ : Type) : Type := AList (fun _ : String => Item α κ)

/-- State of a cache (`type Cache struct`). -/
structure Cache (α κ : Type) where
  items : Items α κ
  counter : Nat
  deriving DecidableEq

/-- Trace of `if item.on_evict != nil { item.on_evict(key, item.data) }`. -/
def fire {α κ : Type} (key : String) (item : Item α κ) : List (Event α κ) :=
  match item.on_evict with
  | none => []
  | some cb => [{ cb := cb, key := key, data := item.data }]

/-- `cache.Set(key, data, ttl, on_evict)` at instant `now`; no callback is called. -/
def Cache.Set {α κ : Type} (cache : Cache α κ) (key : String) (data : Value α) (ttl : Int)
    (on_evict : Option κ) (now : Int) : Cache α κ × List (Event α κ) :=
  let item : Item α κ := { data := data, expires := none, ttl := ttl, on_evict := on_evict }
  let item := item.touch now
  ({ cache with items := cache.items.insert key item }, [])

/-- `cache.Get(key, touch)` at instant `now`: new state and the pair `(data, found)`. -/
def Cache.Get {α κ : Type} (cache : Cache α κ) (key : String) (touch : Bool) (now : Int) :
    Cache α κ × (Value α × Bool) :=
  match cache.items.lookup key with
  | none => (cache, (Value.str "", false))
  | some item =>
    if item.expired now then (cache, (Value.str "", false))
    else
      ({ items := if touch then cache.items.replace key (item.touch now) else cache.items,
         counter := (cache.counter + 1) % 2 ^ 64 },
       (item.data, true))

/-- `cache.GetCounter()`. -/
def Cache.GetCounter {α κ : Type} (cache : Cache α κ) : Nat := cache.counter

/-- `cache.Count()`: `len(cache.items)`. -/
def Cache.Count {α κ : Type} (cache : Cache α κ) : Nat := cache.items.entries.length

/-- Body of the `range` loop of `cleanup`, over the entries still to visit. -/
def cleanupLoop {α κ : Type} (now : Int) :
    List (Σ _ : String, Item α κ) → Items α κ → List (Event α κ) → Items α κ × List (Event α κ)
  | [], m, tr => (m, tr)
  | e :: rest, m, tr =>
    if e.2.expired now then cleanupLoop now rest (m.erase e.1) (tr ++ fire e.1 e.2)
    else cleanupLoop now rest m tr

/-- `cache.cleanup()` at instant `now`: one sweep pass. -/
def Cache.cleanup {α κ : Type} (cache : Cache α κ) (now : Int) : Cache α κ × List (Event α κ) :=
  let r := cleanupLoop now cache.items.entries cache.items []
  ({ cache with items := r.1 }, r.2)

/-- Body of the `range` loop of `CleanAll`: `item := cache.items[key]` is read from the
current map and dereferenced, so a missing key would panic. -/
def cleanAllLoop {α κ : Type} :
    List String → Items α κ → List (Event α κ) → Option (Items α κ × List (Event α κ))
  | [], m, tr => some (m, tr)
  | key :: rest, m, tr =>
    match m.lookup key with
    | none => none
    | some item => cleanAllLoop rest (m.erase key) (tr ++ fire key item)

/-- `cache.CleanAll()`. -/
def Cache.CleanAll {α κ : Type} (cache : Cache α κ) : Option (Cache α κ × List (Event α κ)) :=
  (cleanAllLoop cache.items.keys cache.items []).map
    (fun r => ({ cache with items := r.1 }, r.2))

/-- `cache.Delete(key)`: `item := cache.items[key]` is nil for a missing key and
`item.on_evict` then dereferences it. -/
def Cache.Delete {α κ : Type} (cache : Cache α κ) (key : String) :
    Option (Cache α κ × List (Event α κ)) :=
  match cache.items.lookup key with
  | none => none
  | some item => some ({ cache with items := cache.items.erase key }, fire key item)

/-- The cache built by `NewCache()`: empty map, counter zero. The ticker it starts is not
part of the state; each of its ticks is one `cleanup`. -/
def NewCache {α κ : Type} : Cache α κ := { items := ∅, counter := 0 }

/-- Callback calls made when the entries `l` are evicted one after the other. -/
def evictions {α κ : Type} : List (Σ _ : String, Item α κ) → List (Event α κ)
  | [] => []
  | e :: l => fire e.1 e.2 ++ evictions l

/-! ## Histories of operations -/

/-- The operations of the cache that can change its state; the sweep pass `cleanup`
is the one the background ticker runs. -/
inductive Op (α κ : Type) where
  | set (key : String) (data : Value α) (ttl : Int) (on_evict : Option κ) : Op α κ
  | get (key : String) (touch : Bool) : Op α κ
  | delete (key : String) : Op α κ
  | cleanAll : Op α κ
  | cleanup : Op α κ
  deriving DecidableEq, Repr

/-- What one operation produces: the callbacks it called, in order, and for `Get` the
pair `(data, found)`. -/
structure Out (α κ : Type) where
  events : List (Event α κ)
  result : Option (Value α × Bool)
  deriving DecidableEq, Repr

/-- One operation performed at instant `now`; `none` when it panics. -/
def step {α κ : Type} (cache : Cache α κ) (now : Int) :
    Op α κ → Option (Cache α κ × Out α κ)
  | Op.set key data ttl cb =>
    let r := cache.Set key data ttl cb now
    some (r.1, { events := r.2, result := none })
  | Op.get key touch =>
    let r := cache.Get key touch now
    some (r.1, { events := [], result := some r.2 })
  | Op.delete key =>
    (cache.Delete key).map (fun r => (r.1, { events := r.2, result := none }))
  | Op.cleanAll =>
    cache.CleanAll.map (fun r => (r.1, { events := r.2, result := none }))
  | Op.cleanup =>
    let r := cache.cleanup now
    some (r.1, { events := r.2, result := none })

/-- A history: operations with the instants at which they are performed, in order. -/
def run {α κ : Type} : Cache α κ → List (Int × Op α κ) → Option (Cache α κ × List (Out α κ))
  | c, [] => some (c, [])
  | c, (t, op) :: rest =>
    match step c t op with
    | none => none
    | some (c1, o) => (run c1 rest).map (fun r => (r.1, o :: r.2))

/-- The operations that give key `k` a new expiration: `Set(k, ...)` and `Get(k, true)`. -/
def Op.refreshes {α κ : Type} (k : String) : Op α κ → Bool
  | Op.set key _ _ _ => decide (key = k)
  | Op.get key touch => decide (key = k) && touch
  | _ => false

/-- The operations that may destroy or replace the entry of key `k`:
`Delete(k)`, `CleanAll` and `Set(k, ...)`. -/
def Op.drops {α κ : Type} (k : String) : Op α κ → Bool
  | Op.set key _ _ _ => decide (key = k)
  | Op.delete key => decide (key = k)
  | Op.cleanAll => true
  | _ => false

/-- Whether the operation is a `Delete`. -/
def Op.isDelete {α κ : Type} : Op α κ → Bool
  | Op.delete _ => true
  | _ => false

/-- A sliding history for key `k`: rounds made of some operations followed by one
`Get(k, true)` at the instant closing the round. Gives the final state and the results
of the closing lookups. -/
def slide {α κ : Type} (k : String) :
    Cache α κ → List (List (Int × Op α κ) × Int) → Option (Cache α κ × List (Value α × Bool))
  | c, [] => some (c, [])
  | c, (between, t) :: rest =>
    match run c between with
    | none => none
    | some (c1, _) =>
      (slide k (c1.Get k true t).1 rest).map (fun r => (r.1, (c1.Get k true t).2 :: r.2))

/-- Spacing of a sliding history for `k` that starts at instant `prev`: each closing lookup
comes less than `ttl` after the previous one, and the operations of a round happen between
the two instants and are none of `Delete(k)`, `CleanAll`, `Set(k, ...)`. -/
def Spaced {α κ : Type} (k : String) (ttl : Int) :
    Int → List (List (Int × Op α κ) × Int) → Prop
  | _, [] => True
  | prev, (between, t) :: rest =>
    prev ≤ t ∧ t - prev < ttl ∧
      (∀ x ∈ between, prev ≤ x.1 ∧ x.1 ≤ t ∧ x.2.drops k = false) ∧
      Spaced k ttl t rest

/-- Key `k` holds data `v` with time-to-live `ttl` and expires no earlier than `d`. -/
def Live {α κ : Type} (k : String) (v : Value α) (ttl d : Int) (c : Cache α κ) : Prop :=
  ∃ it, c.items.lookup k = some it ∧ it.data = v ∧ it.ttl = ttl ∧
    ∃ e, it.expires = some e ∧ d ≤ e

/-! ## Sample states -/

/-- Two entries inserted at instant 0: `"a"` with data 1, a time-to-live of 50ms and
callback 7, then `"b"` with data 2, a time-to-live of 100ms and no callback. -/
def demo : Cache Int Nat :=
  (((NewCache : Cache Int Nat).Set "a" (Value.other 1) 50000000 (some 7) 0).1.Set
    "b" (Value.other 2) 100000000 none 0).1

/-- The state `demo` with the hit counter at the largest `uint64`. -/
def demoFull : Cache Int Nat := { demo with counter := 18446744073709551615 }

/-- A sliding history for `"a"` after `Set("a", 1, 50ms, _)` at instant 0: a sweep pass at
30ms and a lookup at 40ms, then a sweep pass at 70ms, a `Get("a", false)` at 75ms and a
lookup at 80ms. -/
def demoRounds : List (List (Int × Op Int Nat) × Int) :=
  [([(30000000, Op.cleanup)], 40000000),
   ([(70000000, Op.cleanup), (75000000, Op.get "a" false)], 80000000)]

/-! ## Further classes of operations -/

/-- Whether the operation is a `Get`. -/
def Op.isGet {α κ : Type} : Op α κ → Bool
  | Op.get _ _ => true
  | _ => false

/-- Whether the operation is a `Set` of key `k`. -/
def Op.sets {α κ : Type} (k : String) : Op α κ → Bool
  | Op.set key _ _ _ => decide (key = k)
  | _ => false

/-! ## The cleanup ticker -/

/-- The duration `time.Second`, in nanoseconds. -/
def Second : Int := 1000000000

/-- `cache.startCleanupTimer()`: the duration handed to `time.Tick`. The loop starts from
one second and, for each entry visited, takes over its `ttl` when that is below one second. -/
def Cache.startCleanupTimer {α κ : Type} (cache : Cache α κ) : Int :=
  cache.items.entries.foldl
    (fun duration e => if e.2.ttl < Second then e.2.ttl else duration) Second

/-- The smallest `ttl` among the entries of the map, capped at one second. -/
def Cache.minTTL {α κ : Type} (cache : Cache α κ) : Int :=
  cache.items.entries.foldl (fun m e => min m e.2.ttl) Second

/-- A cache in service: its state, the instant `born` at which `NewCache` built it and the
period of the ticker that `startCleanupTimer` started then. -/
structure Running (α κ : Type) where
  cache : Cache α κ
  born : Int
  period : Int

/-- The result of `NewCache()` called at instant `born`: the empty cache, with the ticker
period that `startCleanupTimer` computes on it. -/
def Running.start {α κ : Type} (born : Int) : Running α κ :=
  { cache := NewCache, born := born, period := (NewCache : Cache α κ).startCleanupTimer }

/-- One operation on a cache in service: it acts on the state only. -/
def Running.step {α κ : Type} (s : Running α κ) (now : Int) (op : Op α κ) :
    Option (Running α κ × Out α κ) :=
  (TTLCache.step s.cache now op).map (fun r => ({ s with cache := r.1 }, r.2))

/-- A history of operations on a cache in service. -/
def Running.run {α κ : Type} :
    Running α κ → List (Int × Op α κ) → Option (Running α κ × List (Out α κ))
  | s, [] => some (s, [])
  | s, (t, op) :: rest =>
    match s.step t op with
    | none => none
    | some (s1, o) => (Running.run s1 rest).map (fun r => (r.1, o :: r.2))

/-- The instants up to `till` at which a ticker of the given period started at `born`
fires: `born + period`, `born + 2 * period`, ...; `time.Tick` gives no tick at all for a
period that is not positive. -/
def ticks (period born till : Int) : List Int :=
  if period ≤ 0 then []
  else (List.range ((till - born) / period).toNat).map
    (fun (i : Nat) => born + ((i : Int) + 1) * period)

/-- Sweep passes performed one after the other at the given instants. -/
def sweeps {α κ : Type} : Cache α κ → List Int → Cache α κ × List (Event α κ)
  | c, [] => (c, [])
  | c, s :: rest =>
    ((sweeps (c.cleanup s).1 rest).1, (c.cleanup s).2 ++ (sweeps (c.cleanup s).1 rest).2)

/-- The scenario "build the cache at `born`, `Set(k, v, ttl, cb)` at `t0`, then wait": the
state and the callback calls once `wait` has elapsed, the only operations after the `Set`
being the sweep passes of the ticker. -/
def setAndWait {α κ : Type} (born t0 wait : Int) (k : String) (v : Value α) (ttl : Int)
    (cb : Option κ) : Cache α κ × List (Event α κ) :=
  sweeps ((Running.start born : Running α κ).cache.Set k v ttl cb t0).1
    ((ticks (Running.start born : Running α κ).period born (t0 + wait)).filter
      (fun s => decide (t0 < s)))

/-- A map visited in the order `"a"` (300ms), `"b"` (500ms). -/
def twoShort : Cache Int Nat :=
  (((NewCache : Cache Int Nat).Set "b" (Value.other 2) 500000000 none 0).1.Set
    "a" (Value.other 1) 300000000 none 0).1

/-- Every entry of the map was last touched at some instant not later than `now`: its
expiration is that instant plus its own `ttl`. -/
def Stamped {α κ : Type} (now : Int) (c : Cache α κ) : Prop :=
  ∀ k it, c.items.lookup k = some it → ∃ τ, τ ≤ now ∧ it.expires = some (τ + it.ttl)

/-! ## Book-keeping of the entries over a history -/

/-- An entry without its expiration: the key, data, `ttl` and callback that a `Set` gave
it, whatever instant it was last touched at. -/
def ident {α κ : Type} (e : Σ _ : String, Item α κ) : Σ _ : String, Item α κ :=
  ⟨e.1, { e.2 with expires := none }⟩

/-- The callbacks carried by a list of entries. -/
def callbacks {α κ : Type} (l : List (Σ _ : String, Item α κ)) : List κ :=
  l.filterMap (fun e => e.2.on_evict)

/-- Ledger of a history: the entries created by a `Set`, those replaced by a later `Set`
of their key, those destroyed by `Delete`, `CleanAll` or a sweep pass, and all the callback
calls made, each list in order of occurrence. -/
structure Ledger (α κ : Type) where
  created : List (Σ _ : String, Item α κ)
  replaced : List (Σ _ : String, Item α κ)
  destroyed : List (Σ _ : String, Item α κ)
  trace : List (Event α κ)

/-- The ledger before any operation. -/
def Ledger.empty {α κ : Type} : Ledger α κ :=
  { created := [], replaced := [], destroyed := [], trace := [] }

/-- The entry of `key` in the map, as a list of none or one entry. -/
def entryOf {α κ : Type} (c : Cache α κ) (key : String) : List (Σ _ : String, Item α κ) :=
  match c.items.lookup key with
  | none => []
  | some it => [⟨key, it⟩]

/-- The ledger after the operation `op`, performed at `now` in state `c` with output `o`:
a `Set` creates an entry and replaces the one its key had; `Delete` destroys the entry of
its key, `CleanAll` all entries, a sweep pass those expired at `now`. -/
def Ledger.record {α κ : Type} (l : Ledger α κ) (c : Cache α κ) (now : Int) (op : Op α κ)
    (o : Out α κ) : Ledger α κ :=
  match op with
  | Op.set key data ttl cb =>
    { created := l.created ++
        [⟨key, { data := data, expires := some (now + ttl), ttl := ttl, on_evict := cb }⟩],
      replaced := l.replaced ++ entryOf c key,
      destroyed := l.destroyed,
      trace := l.trace ++ o.events }
  | Op.get _ _ => { l with trace := l.trace ++ o.events }
  | Op.delete key =>
    { l with destroyed := l.destroyed ++ entryOf c key, trace := l.trace ++ o.events }
  | Op.cleanAll =>
    { l with destroyed := l.destroyed ++ c.items.entries, trace := l.trace ++ o.events }
  | Op.cleanup =>
    { l with destroyed := l.destroyed ++ c.items.entries.filter (fun e => e.2.expired now),
             trace := l.trace ++ o.events }

/-- A history run together with its ledger; `none` when an operation panics. -/
def audit {α κ : Type} :
    Cache α κ → Ledger α κ → List (Int × Op α κ) → Option (Cache α κ × Ledger α κ)
  | c, l, [] => some (c, l)
  | c, l, (t, op) :: rest =>
    match step c t op with
    | none => none
    | some (c1, o) => audit c1 (l.record c t op o) rest

/-- All callback calls of a list of outputs, in order. -/
def traceOf {α κ : Type} : List (Out α κ) → List (Event α κ)
  | [] => []
  | o :: rest => o.events ++ traceOf rest

/-- The entries that the `Set` operations of a history create, in order. -/
def setsOf {α κ : Type} : List (Int × Op α κ) → List (Σ _ : String, Item α κ)
  | [] => []
  | (t, Op.set key data ttl cb) :: rest =>
    ⟨key, { data := data, expires := some (t + ttl), ttl := ttl, on_evict := cb }⟩ ::
      setsOf rest
  | _ :: rest => setsOf rest

/-- The ledger balances with the map: the entries created are, up to their expiration, those
in the map, those replaced and those destroyed, and the calls made are those of the
destroyed entries. -/
def Balanced {α κ : Type} (c : Cache α κ) (l : Ledger α κ) : Prop :=
  (l.created.map ident).Perm ((c.items.entries ++ l.replaced ++ l.destroyed).map ident) ∧
    l.trace = evictions l.destroyed

/-- The entries of a list as a bag, expirations left out. -/
def bag {α κ : Type} (l : List (Σ _ : String, Item α κ)) :
    Multiset (Σ _ : String, Item α κ) :=
  ((l.map ident : List (Σ _ : String, Item α κ)) : Multiset (Σ _ : String, Item α κ))

/-- A history in which callback 1 is replaced, callback 2 is deleted, callback 3 is swept
and callback 4 stays in the map. -/
def demoHistory : List (Int × Op Int Nat) :=
  [(0, Op.set "a" (Value.other 1) 50000000 (some 1)),
   (1, Op.set "a" (Value.other 2) 50000000 (some 2)),
   (2, Op.set "b" (Value.other 3) 10000000 (some 3)),
   (3, Op.get "a" true),
   (4, Op.delete "a"),
   (20000000, Op.cleanup),
   (20000001, Op.set "c" (Value.other 4) 50000000 (some 4)),
   (20000002, Op.cleanup)]

/-! ## Facts about the association list -/

section MapFacts

variable {α κ : Type}

theorem dlookup_kreplace_self (k : String) (b : Item α κ) :
    ∀ l : List (Σ _ : String, Item α κ),
      List.dlookup k (List.kreplace k b l) = (List.dlookup k l).map (fun _ => b)
  | [] => rfl
  | e :: l => by
    by_cases h : k = e.1
    · obtain ⟨a, x⟩ := e
      cases h
      simp [List.kreplace, List.lookmap_cons_some, List.dlookup_cons_eq]
    · have hk : List.kreplace k b (e :: l) = e :: List.kreplace k b l := by
        simp [List.kreplace, List.lookmap_cons_none, h]
      rw [hk, List.dlookup_cons_ne _ _ h, List.dlookup_cons_ne _ _ h,
        dlookup_kreplace_self k b l]

theorem dlookup_kreplace_ne {k k' : String} (b : Item α κ) (hne : k' ≠ k) :
    ∀ l : List (Σ _ : String, Item α κ),
      List.dlookup k' (List.kreplace k b l) = List.dlookup k' l
  | [] => rfl
  | e :: l => by
    by_cases h : k = e.1
    · obtain ⟨a, x⟩ := e
      subst h
      have hk : List.kreplace k b (⟨k, x⟩ :: l) = ⟨k, b⟩ :: l := by
        simp [List.kreplace, List.lookmap_cons_some]
      rw [hk, List.dlookup_cons_ne _ _ hne, List.dlookup_cons_ne _ _ hne]
    · have hk : List.kreplace k b (e :: l) = e :: List.kreplace k b l := by
        simp [List.kreplace, List.lookmap_cons_none, h]
      rw [hk]
      by_cases h' : k' = e.1
      · obtain ⟨a, x⟩ := e
        subst h'
        simp [List.dlookup_cons_eq]
      · rw [List.dlookup_cons_ne _ _ h', List.dlookup_cons_ne _ _ h',
          dlookup_kreplace_ne b hne l]

theorem lookup_replace_self (m : Items α κ) (k : String) (b : Item α κ) :
    (m.replace k b).lookup k = (m.lookup k).map (fun _ => b) :=
  dlookup_kreplace_self k b m.entries

theorem lookup_replace_ne (m : Items α κ) {k k' : String} (b : Item α κ) (hne : k' ≠ k) :
    (m.replace k b).lookup k' = m.lookup k' :=
  dlookup_kreplace_ne b hne m.entries

theorem length_replace (m : Items α κ) (k : String) (b : Item α κ) :
    (m.replace k b).entries.length = m.entries.length := by
  have h := congrArg List.length (AList.keys_replace k b m)
  simpa [AList.keys, List.keys] using h

theorem length_erase_of_lookup (m : Items α κ) {k : String} {it : Item α κ}
    (h : m.lookup k = some it) : (m.erase k).entries.length + 1 = m.entries.length := by
  have hk : k ∈ m.keys := by
    rw [← AList.mem_keys, ← AList.lookup_isSome, h]; rfl
  have h1 := congrArg List.length (AList.keys_erase k m)
  rw [List.length_erase_of_mem hk] at h1
  have hpos : 0 < m.keys.length := List.length_pos_of_mem hk
  simp only [AList.keys, List.keys, List.length_map] at h1 hpos
  omega

theorem length_insert_of_lookup (m : Items α κ) {k : String} {it : Item α κ} (b : Item α κ)
    (h : m.lookup k = some it) : (m.insert k b).entries.length = m.entries.length := by
  rw [AList.insert_entries, List.length_cons]
  exact length_erase_of_lookup m h

end MapFacts

/-! ## The two `range` loops in closed form -/

section Loops

variable {α κ : Type}

theorem cleanAllLoop_eq :
    ∀ (l : List (Σ _ : String, Item α κ)) (m : Items α κ) (tr : List (Event α κ)),
      m.entries = l → cleanAllLoop l.keys m tr = some (∅, tr ++ evictions l)
  | [], m, tr, h => by
    have hm : m = ∅ := AList.ext (by rw [h]; rfl)
    simp [cleanAllLoop, evictions, hm, List.keys]
  | e :: l, m, tr, h => by
    obtain ⟨k, it⟩ := e
    have hl : m.lookup k = some it := by
      show List.dlookup k m.entries = some it
      rw [h, List.dlookup_cons_eq]
    have he : (m.erase k).entries = l := by
      show List.kerase k m.entries = l
      rw [h]
      exact List.kerase_cons_eq rfl
    have ih := cleanAllLoop_eq l (m.erase k) (tr ++ fire k it) he
    simp only [List.keys, List.map_cons, cleanAllLoop, hl]
    simp only [List.keys] at ih
    rw [ih, evictions, List.append_assoc]

theorem not_mem_keys_of_append (pre rest : List (Σ _ : String, Item α κ))
    (e : Σ _ : String, Item α κ) (nd : (pre ++ e :: rest).NodupKeys) : e.1 ∉ pre.keys := by
  intro hmem
  have h : (pre.keys ++ e.1 :: rest.keys).Nodup := by
    simpa [List.NodupKeys, List.keys] using nd
  have hd := (List.nodup_append.1 h).2.2
  exact hd hmem (List.mem_cons_self _ _)

theorem cleanupLoop_eq (now : Int) :
    ∀ (rest pre : List (Σ _ : String, Item α κ)) (m : Items α κ) (tr : List (Event α κ)),
      m.entries = pre ++ rest →
      (cleanupLoop now rest m tr).1.entries
          = pre ++ rest.filter (fun e => !e.2.expired now) ∧
        (cleanupLoop now rest m tr).2
          = tr ++ evictions (rest.filter (fun e => e.2.expired now))
  | [], pre, m, tr, h => by
    simp [cleanupLoop, evictions, h]
  | e :: rest, pre, m, tr, h => by
    by_cases hx : e.2.expired now = true
    · have hk : e.1 ∉ pre.keys := not_mem_keys_of_append pre rest e (h ▸ m.nodupKeys)
      have he : (m.erase e.1).entries = pre ++ rest := by
        show List.kerase e.1 m.entries = pre ++ rest
        rw [h, List.kerase_append_right hk]
        exact congrArg (pre ++ ·) (List.kerase_cons_eq rfl)
      have ih := cleanupLoop_eq now rest pre (m.erase e.1) (tr ++ fire e.1 e.2) he
      simp only [cleanupLoop, hx, if_true, List.filter_cons, Bool.not_true, evictions]
      refine ⟨by simpa using ih.1, ?_⟩
      rw [ih.2, List.append_assoc]
    · have hx' : e.2.expired now = false := by simpa using hx
      have he : m.entries = (pre ++ [e]) ++ rest := by simp [h]
      have ih := cleanupLoop_eq now rest (pre ++ [e]) m tr he
      simp only [cleanupLoop, hx', List.filter_cons, Bool.not_false, if_true]
      refine ⟨by simpa using ih.1, by simpa using ih.2⟩

theorem cleanup_entries (cache : Cache α κ) (now : Int) :
    (cache.cleanup now).1.items.entries
      = cache.items.entries.filter (fun e => !e.2.expired now) := by
  have h := (cleanupLoop_eq now cache.items.entries [] cache.items [] rfl).1
  simpa [Cache.cleanup] using h

theorem cleanup_events (cache : Cache α κ) (now : Int) :
    (cache.cleanup now).2
      = evictions (cache.items.entries.filter (fun e => e.2.expired now)) := by
  have h := (cleanupLoop_eq now cache.items.entries [] cache.items [] rfl).2
  simpa [Cache.cleanup] using h

theorem CleanAll_eq (cache : Cache α κ) :
    cache.CleanAll
      = some ({ cache with items := ∅ }, evictions cache.items.entries) := by
  have h := cleanAllLoop_eq cache.items.entries cache.items [] rfl
  simp only [List.nil_append] at h
  show Option.map _ (cleanAllLoop cache.items.entries.keys cache.items []) = _
  rw [h]; rfl

end Loops

/-! ## Callback traces -/

section Traces

variable {α κ : Type}

theorem mem_fire {k : String} {it : Item α κ} {ev : Event α κ} :
    ev ∈ fire k it ↔ it.on_evict = some ev.cb ∧ ev.key = k ∧ ev.data = it.data := by
  obtain ⟨cb, key, data⟩ := ev
  cases h : it.on_evict with
  | none => simp [fire, h]
  | some c =>
    simp only [fire, h, List.mem_singleton, Event.mk.injEq, Option.some.injEq]
    constructor
    · rintro ⟨h1, h2, h3⟩; exact ⟨h1.symm, h2, h3⟩
    · rintro ⟨h1, h2, h3⟩; exact ⟨h1.symm, h2, h3⟩

theorem filter_fire_self (k : String) (it : Item α κ) :
    (fire k it).filter (fun ev => decide (ev.key = k)) = fire k it := by
  cases h : it.on_evict <;> simp [fire, h]

theorem filter_fire_ne {k k' : String} (it : Item α κ) (h : k' ≠ k) :
    (fire k' it).filter (fun ev => decide (ev.key = k)) = [] := by
  cases h' : it.on_evict <;> simp [fire, h', h]

theorem mem_evictions {ev : Event α κ} :
    ∀ {l : List (Σ _ : String, Item α κ)},
      ev ∈ evictions l ↔
        ∃ e ∈ l, e.2.on_evict = some ev.cb ∧ ev.key = e.1 ∧ ev.data = e.2.data
  | [] => by simp [evictions]
  | e :: l => by
    simp only [evictions, List.mem_append, mem_fire, mem_evictions (l := l),
      List.mem_cons, exists_eq_or_imp]

theorem filter_evictions_of_not_mem (k : String) :
    ∀ l : List (Σ _ : String, Item α κ), k ∉ l.keys →
      (evictions l).filter (fun ev => decide (ev.key = k)) = []
  | [], _ => rfl
  | e :: l, h => by
    have h1 : e.1 ≠ k := fun he => h (by simp [List.keys, ← he])
    have h2 : k ∉ l.keys := fun hm => h (by
      simp only [List.keys, List.map_cons, List.mem_cons]; exact Or.inr hm)
    rw [evictions, List.filter_append, filter_fire_ne e.2 h1,
      filter_evictions_of_not_mem k l h2]
    rfl

theorem filter_evictions_of_mem {k : String} {it : Item α κ} :
    ∀ l : List (Σ _ : String, Item α κ), l.NodupKeys → Sigma.mk k it ∈ l →
      (evictions l).filter (fun ev => decide (ev.key = k)) = fire k it
  | [], _, h => by simp at h
  | e :: l, nd, h => by
    have nd' := List.nodupKeys_cons.1 nd
    rcases List.mem_cons.1 h with h | h
    · subst h
      rw [evictions, List.filter_append, filter_fire_self,
        filter_evictions_of_not_mem k l nd'.1, List.append_nil]
    · have hk : k ∈ l.keys := List.mem_keys_of_mem h
      have h1 : e.1 ≠ k := fun he => nd'.1 (he ▸ hk)
      rw [evictions, List.filter_append, filter_fire_ne e.2 h1,
        filter_evictions_of_mem l nd'.2 h]
      rfl

end Traces

/-! ## The sweep pass, key by key -/

section Sweep

variable {α κ : Type}

theorem lookup_cleanup_eq_some (cache : Cache α κ) (now : Int) (k : String) (it : Item α κ) :
    (cache.cleanup now).1.items.lookup k = some it ↔
      cache.items.lookup k = some it ∧ it.expired now = false := by
  have h1 := AList.mem_lookup_iff (a := k) (b := it) (s := (cache.cleanup now).1.items)
  have h2 := AList.mem_lookup_iff (a := k) (b := it) (s := cache.items)
  rw [Option.mem_def] at h1 h2
  rw [h1, h2, cleanup_entries, List.mem_filter]
  simp

theorem lookup_cleanup_of_expired (cache : Cache α κ) (now : Int) {k : String} {it : Item α κ}
    (h : cache.items.lookup k = some it) (hx : it.expired now = true) :
    (cache.cleanup now).1.items.lookup k = none := by
  cases h' : (cache.cleanup now).1.items.lookup k with
  | none => rfl
  | some it' =>
    have := (lookup_cleanup_eq_some cache now k it').1 h'
    rw [h] at this
    obtain ⟨h1, h2⟩ := this
    cases h1
    rw [hx] at h2
    cases h2

theorem cleanup_counter (cache : Cache α κ) (now : Int) :
    (cache.cleanup now).1.counter = cache.counter := rfl

theorem mem_entries_of_lookup {m : Items α κ} {k : String} {it : Item α κ}
    (h : m.lookup k = some it) : Sigma.mk k it ∈ m.entries := by
  have h1 := AList.mem_lookup_iff (a := k) (b := it) (s := m)
  rw [Option.mem_def] at h1
  exact h1.1 h

theorem lookup_of_mem_entries {m : Items α κ} {e : Σ _ : String, Item α κ}
    (h : e ∈ m.entries) : m.lookup e.1 = some e.2 := by
  have h1 := AList.mem_lookup_iff (a := e.1) (b := e.2) (s := m)
  rw [Option.mem_def] at h1
  exact h1.2 h

theorem filter_cleanup_events_of_expired (cache : Cache α κ) (now : Int) {k : String}
    {it : Item α κ} (h : cache.items.lookup k = some it) (hx : it.expired now = true) :
    (cache.cleanup now).2.filter (fun ev => decide (ev.key = k)) = fire k it := by
  rw [cleanup_events]
  apply filter_evictions_of_mem
  · exact List.NodupKeys.sublist (List.filter_sublist _) cache.items.nodupKeys
  · exact List.mem_filter.2 ⟨mem_entries_of_lookup h, hx⟩

theorem filter_cleanup_events_of_live (cache : Cache α κ) (now : Int) {k : String}
    {it : Item α κ} (h : cache.items.lookup k = some it) (hx : it.expired now = false) :
    (cache.cleanup now).2.filter (fun ev => decide (ev.key = k)) = [] := by
  rw [cleanup_events]
  apply filter_evictions_of_not_mem
  intro hk
  obtain ⟨it', hit'⟩ := List.exists_of_mem_keys hk
  obtain ⟨h1, h2⟩ := List.mem_filter.1 hit'
  have := cache.items.nodupKeys.eq_of_mk_mem h1 (mem_entries_of_lookup h)
  subst this
  rw [hx] at h2
  cases h2

theorem mem_cleanup_events (cache : Cache α κ) (now : Int) {ev : Event α κ}
    (h : ev ∈ (cache.cleanup now).2) :
    ∃ it, cache.items.lookup ev.key = some it ∧ it.expired now = true ∧
      it.on_evict = some ev.cb ∧ it.data = ev.data := by
  rw [cleanup_events] at h
  obtain ⟨e, he, h1, h2, h3⟩ := mem_evictions.1 h
  obtain ⟨he1, he2⟩ := List.mem_filter.1 he
  exact ⟨e.2, by rw [h2]; exact lookup_of_mem_entries he1, he2, h1, h3.symm⟩

theorem fire_of_some {k : String} {it : Item α κ} {cb : κ} (h : it.on_evict = some cb) :
    fire k it = [{ cb := cb, key := k, data := it.data }] := by
  simp [fire, h]

theorem fire_of_none {k : String} {it : Item α κ} (h : it.on_evict = none) :
    fire k it = [] := by
  simp [fire, h]

end Sweep

/-! ## `Get`, `Set` and `Delete` case by case -/

section Cases

variable {α κ : Type}

theorem Get_of_lookup_none (cache : Cache α κ) (k : String) (touch : Bool) (now : Int)
    (h : cache.items.lookup k = none) :
    cache.Get k touch now = (cache, (Value.str "", false)) := by
  simp [Cache.Get, h]

theorem Get_of_expired (cache : Cache α κ) (k : String) (touch : Bool) (now : Int)
    {it : Item α κ} (h : cache.items.lookup k = some it) (hx : it.expired now = true) :
    cache.Get k touch now = (cache, (Value.str "", false)) := by
  simp [Cache.Get, h, hx]

theorem Get_of_live (cache : Cache α κ) (k : String) (touch : Bool) (now : Int)
    {it : Item α κ} (h : cache.items.lookup k = some it) (hx : it.expired now = false) :
    cache.Get k touch now =
      ({ items := if touch then cache.items.replace k (it.touch now) else cache.items,
         counter := (cache.counter + 1) % 2 ^ 64 }, (it.data, true)) := by
  simp [Cache.Get, h, hx]

theorem Get_lookup_ne (cache : Cache α κ) (key : String) (touch : Bool) (now : Int)
    {k : String} (hne : k ≠ key) :
    (cache.Get key touch now).1.items.lookup k = cache.items.lookup k := by
  cases h : cache.items.lookup key with
  | none => rw [Get_of_lookup_none cache key touch now h]
  | some it =>
    cases hx : it.expired now with
    | true => rw [Get_of_expired cache key touch now h hx]
    | false =>
      rw [Get_of_live cache key touch now h hx]
      cases touch
      · rfl
      · exact lookup_replace_ne cache.items (it.touch now) hne

theorem Get_no_touch_items (cache : Cache α κ) (key : String) (now : Int) :
    (cache.Get key false now).1.items = cache.items := by
  cases h : cache.items.lookup key with
  | none => rw [Get_of_lookup_none cache key false now h]
  | some it =>
    cases hx : it.expired now with
    | true => rw [Get_of_expired cache key false now h hx]
    | false => rw [Get_of_live cache key false now h hx]; rfl

theorem Set_lookup_self (cache : Cache α κ) (k : String) (v : Value α) (ttl : Int)
    (cb : Option κ) (now : Int) :
    (cache.Set k v ttl cb now).1.items.lookup k
      = some { data := v, expires := some (now + ttl), ttl := ttl, on_evict := cb } := by
  simp [Cache.Set, Item.touch, AList.lookup_insert]

theorem Set_lookup_ne (cache : Cache α κ) (key : String) (v : Value α) (ttl : Int)
    (cb : Option κ) (now : Int) {k : String} (hne : k ≠ key) :
    (cache.Set key v ttl cb now).1.items.lookup k = cache.items.lookup k := by
  simp [Cache.Set, AList.lookup_insert_ne hne]

theorem Delete_of_lookup_none (cache : Cache α κ) (k : String)
    (h : cache.items.lookup k = none) : cache.Delete k = none := by
  simp [Cache.Delete, h]

theorem Delete_of_lookup_some (cache : Cache α κ) (k : String) {it : Item α κ}
    (h : cache.items.lookup k = some it) :
    cache.Delete k = some ({ cache with items := cache.items.erase k }, fire k it) := by
  simp [Cache.Delete, h]

theorem expired_of_lt {it : Item α κ} {d now : Int} (he : it.expires = some d) (h : d < now) :
    it.expired now = true := by
  simp [Item.expired, he, h]

theorem not_expired_of_le {it : Item α κ} {d now : Int} (he : it.expires = some d)
    (h : now ≤ d) : it.expired now = false := by
  simp [Item.expired, he, h]

end Cases

/-! ## An entry that is not refreshed keeps its expiration -/

section Deadline

variable {α κ : Type}

theorem step_deadline (k : String) (d : Int) (c c1 : Cache α κ) (t : Int) (op : Op α κ)
    (o : Out α κ) (hop : op.refreshes k = false) (hs : step c t op = some (c1, o))
    (hI : ∀ it, c.items.lookup k = some it → it.expires = some d) :
    ∀ it, c1.items.lookup k = some it → it.expires = some d := by
  intro it hit
  cases op with
  | set key data ttl cb =>
    have hne : k ≠ key := by
      intro he; simp [Op.refreshes, he] at hop
    simp only [step, Option.some.injEq, Prod.mk.injEq] at hs
    rw [← hs.1, Set_lookup_ne c key data ttl cb t hne] at hit
    exact hI it hit
  | get key touch =>
    simp only [step, Option.some.injEq, Prod.mk.injEq] at hs
    rw [← hs.1] at hit
    by_cases hk : k = key
    · subst hk
      have ht : touch = false := by
        cases touch
        · rfl
        · simp [Op.refreshes] at hop
      subst ht
      rw [Get_no_touch_items] at hit
      exact hI it hit
    · rw [Get_lookup_ne c key touch t hk] at hit
      exact hI it hit
  | delete key =>
    cases hl : c.items.lookup key with
    | none => simp [step, Delete_of_lookup_none c key hl] at hs
    | some it' =>
      simp only [step, Delete_of_lookup_some c key hl, Option.map_some', Option.some.injEq,
        Prod.mk.injEq] at hs
      rw [← hs.1] at hit
      by_cases hk : k = key
      · subst hk
        simp [AList.lookup_erase] at hit
      · simp only [AList.lookup_erase_ne hk] at hit
        exact hI it hit
  | cleanAll =>
    simp only [step, CleanAll_eq, Option.map_some', Option.some.injEq, Prod.mk.injEq] at hs
    rw [← hs.1] at hit
    simp [AList.lookup_empty] at hit
  | cleanup =>
    simp only [step, Option.some.injEq, Prod.mk.injEq] at hs
    rw [← hs.1] at hit
    exact hI it ((lookup_cleanup_eq_some c t k it).1 hit).1

theorem run_deadline (k : String) (d : Int) :
    ∀ (ops : List (Int × Op α κ)) (c c1 : Cache α κ) (outs : List (Out α κ)),
      (∀ x ∈ ops, x.2.refreshes k = false) → run c ops = some (c1, outs) →
      (∀ it, c.items.lookup k = some it → it.expires = some d) →
      ∀ it, c1.items.lookup k = some it → it.expires = some d
  | [], c, c1, outs, _, hr, hI => by
    simp only [run, Option.some.injEq, Prod.mk.injEq] at hr
    rw [← hr.1]; exact hI
  | (t, op) :: rest, c, c1, outs, hops, hr, hI => by
    cases hs : step c t op with
    | none => simp [run, hs] at hr
    | some r =>
      obtain ⟨c2, o⟩ := r
      cases hr2 : run c2 rest with
      | none => simp [run, hs, hr2] at hr
      | some r2 =>
        obtain ⟨c3, os⟩ := r2
        simp only [run, hs, hr2, Option.map_some', Option.some.injEq, Prod.mk.injEq] at hr
        have h1 := step_deadline k d c c2 t op o (hops (t, op) (List.mem_cons_self _ _)) hs hI
        have h2 := run_deadline k d rest c2 c3 os
          (fun x hx => hops x (List.mem_cons_of_mem _ hx)) hr2 h1
        rw [← hr.1]; exact h2

end Deadline

/-! ## An entry that is looked up in time stays live -/

section Sliding

variable {α κ : Type}

theorem Live.not_expired {k : String} {v : Value α} {ttl d : Int} {c : Cache α κ}
    {it : Item α κ} (hl : Live k v ttl d c) (hit : c.items.lookup k = some it) {x : Int}
    (hx : x < d) : it.expired x = false := by
  obtain ⟨it', h1, _, _, e, he, hde⟩ := hl
  rw [hit] at h1
  cases h1
  exact not_expired_of_le he (by omega)

theorem Get_touch_live (k : String) (v : Value α) (ttl prev x : Int) (c : Cache α κ)
    (hx : x < prev + ttl) (hl : Live k v ttl (prev + ttl) c) :
    (c.Get k true x).2 = (v, true) ∧ Live k v ttl (x + ttl) (c.Get k true x).1 := by
  obtain ⟨it, h1, h2, h3, e, he, hde⟩ := hl
  have hne : it.expired x = false := not_expired_of_le he (by omega)
  rw [Get_of_live c k true x h1 hne]
  refine ⟨by rw [h2], it.touch x, ?_, h2, h3, x + ttl, ?_, le_refl _⟩
  · simp only [if_true]
    rw [lookup_replace_self, h1]; rfl
  · simp [Item.touch, h3]

theorem step_live (k : String) (v : Value α) (ttl prev x : Int) (c c1 : Cache α κ)
    (op : Op α κ) (o : Out α κ) (hop : op.drops k = false) (hp : prev ≤ x)
    (hx : x < prev + ttl) (hs : step c x op = some (c1, o))
    (hl : Live k v ttl (prev + ttl) c) : Live k v ttl (prev + ttl) c1 := by
  cases op with
  | set key data ttl' cb =>
    have hne : k ≠ key := by
      intro he; simp [Op.drops, he] at hop
    simp only [step, Option.some.injEq, Prod.mk.injEq] at hs
    obtain ⟨it, h1, h2⟩ := hl
    exact ⟨it, by rw [← hs.1, Set_lookup_ne c key data ttl' cb x hne]; exact h1, h2⟩
  | get key touch =>
    simp only [step, Option.some.injEq, Prod.mk.injEq] at hs
    rw [← hs.1]
    by_cases hk : k = key
    · subst hk
      cases touch
      · obtain ⟨it, h1, h2⟩ := hl
        exact ⟨it, by rw [Get_no_touch_items]; exact h1, h2⟩
      · obtain ⟨it, h1, h2, h3, e, he, hde⟩ := (Get_touch_live k v ttl prev x c hx hl).2
        exact ⟨it, h1, h2, h3, e, he, by omega⟩
    · obtain ⟨it, h1, h2⟩ := hl
      exact ⟨it, by rw [Get_lookup_ne c key touch x hk]; exact h1, h2⟩
  | delete key =>
    have hne : k ≠ key := by
      intro he; simp [Op.drops, he] at hop
    cases hd : c.items.lookup key with
    | none => simp [step, Delete_of_lookup_none c key hd] at hs
    | some it' =>
      simp only [step, Delete_of_lookup_some c key hd, Option.map_some', Option.some.injEq,
        Prod.mk.injEq] at hs
      obtain ⟨it, h1, h2⟩ := hl
      refine ⟨it, ?_, h2⟩
      rw [← hs.1]
      simp only [AList.lookup_erase_ne hne]
      exact h1
  | cleanAll => simp [Op.drops] at hop
  | cleanup =>
    simp only [step, Option.some.injEq, Prod.mk.injEq] at hs
    obtain ⟨it, h1, h2⟩ := hl
    have hne : it.expired x = false := Live.not_expired ⟨it, h1, h2⟩ h1 hx
    refine ⟨it, ?_, h2⟩
    rw [← hs.1]
    exact (lookup_cleanup_eq_some c x k it).2 ⟨h1, hne⟩

theorem run_live (k : String) (v : Value α) (ttl prev t : Int) (ht : t < prev + ttl) :
    ∀ (ops : List (Int × Op α κ)) (c c1 : Cache α κ) (outs : List (Out α κ)),
      (∀ x ∈ ops, prev ≤ x.1 ∧ x.1 ≤ t ∧ x.2.drops k = false) →
      run c ops = some (c1, outs) → Live k v ttl (prev + ttl) c →
      Live k v ttl (prev + ttl) c1
  | [], c, c1, outs, _, hr, hl => by
    simp only [run, Option.some.injEq, Prod.mk.injEq] at hr
    rw [← hr.1]; exact hl
  | (x, op) :: rest, c, c1, outs, hops, hr, hl => by
    cases hs : step c x op with
    | none => simp [run, hs] at hr
    | some r =>
      obtain ⟨c2, o⟩ := r
      cases hr2 : run c2 rest with
      | none => simp [run, hs, hr2] at hr
      | some r2 =>
        obtain ⟨c3, os⟩ := r2
        simp only [run, hs, hr2, Option.map_some', Option.some.injEq, Prod.mk.injEq] at hr
        obtain ⟨h1, h2, h3⟩ := hops (x, op) (List.mem_cons_self _ _)
        have hl2 := step_live k v ttl prev x c c2 op o h3 h1 (by omega) hs hl
        have hl3 := run_live k v ttl prev t ht rest c2 c3 os
          (fun y hy => hops y (List.mem_cons_of_mem _ hy)) hr2 hl2
        rw [← hr.1]; exact hl3

theorem slide_hits (k : String) (v : Value α) (ttl : Int) :
    ∀ (rounds : List (List (Int × Op α κ) × Int)) (prev : Int) (c c1 : Cache α κ)
      (rs : List (Value α × Bool)),
      Spaced k ttl prev rounds → Live k v ttl (prev + ttl) c →
      slide k c rounds = some (c1, rs) →
      rs = List.replicate rounds.length (v, true) ∧ ∃ d, Live k v ttl d c1
  | [], prev, c, c1, rs, _, hl, hr => by
    simp only [slide, Option.some.injEq, Prod.mk.injEq] at hr
    exact ⟨by rw [← hr.2]; rfl, prev + ttl, by rw [← hr.1]; exact hl⟩
  | (between, t) :: rest, prev, c, c1, rs, hsp, hl, hr => by
    obtain ⟨h1, h2, h3, h4⟩ := hsp
    cases hb : run c between with
    | none => simp [slide, hb] at hr
    | some r =>
      obtain ⟨c2, os⟩ := r
      have hl2 := run_live k v ttl prev t (by omega) between c c2 os h3 hb hl
      obtain ⟨hg1, hg2⟩ := Get_touch_live k v ttl prev t c2 (by omega) hl2
      cases hr2 : slide k (c2.Get k true t).1 rest with
      | none => simp [slide, hb, hr2] at hr
      | some r2 =>
        obtain ⟨c3, rs3⟩ := r2
        simp only [slide, hb, hr2, Option.map_some', Option.some.injEq, Prod.mk.injEq] at hr
        obtain ⟨ih1, ih2⟩ := slide_hits k v ttl rest t _ c3 rs3 h4 hg2 hr2
        refine ⟨?_, by rw [← hr.1]; exact ih2⟩
        rw [← hr.2, hg1, ih1]; rfl

theorem step_isSome_of_not_delete (c : Cache α κ) (x : Int) (op : Op α κ)
    (h : op.isDelete = false) : (step c x op).isSome = true := by
  cases op with
  | delete key => simp [Op.isDelete] at h
  | cleanAll => simp [step, CleanAll_eq]
  | set key data ttl cb => rfl
  | get key touch => rfl
  | cleanup => rfl

theorem run_isSome_of_no_delete :
    ∀ (ops : List (Int × Op α κ)) (c : Cache α κ),
      (∀ x ∈ ops, x.2.isDelete = false) → (run c ops).isSome = true
  | [], _, _ => rfl
  | (x, op) :: rest, c, h => by
    have h1 := step_isSome_of_not_delete c x op (h (x, op) (List.mem_cons_self _ _))
    cases hs : step c x op with
    | none => rw [hs] at h1; cases h1
    | some r =>
      obtain ⟨c2, o⟩ := r
      have h2 := run_isSome_of_no_delete rest c2
        (fun y hy => h y (List.mem_cons_of_mem _ hy))
      cases hr : run c2 rest with
      | none => rw [hr] at h2; cases h2
      | some r2 => simp [run, hs, hr]

theorem slide_isSome_of_no_delete (k : String) :
    ∀ (rounds : List (List (Int × Op α κ) × Int)) (c : Cache α κ),
      (∀ r ∈ rounds, ∀ x ∈ r.1, x.2.isDelete = false) → (slide k c rounds).isSome = true
  | [], _, _ => rfl
  | (between, t) :: rest, c, h => by
    have h1 := run_isSome_of_no_delete between c (h (between, t) (List.mem_cons_self _ _))
    cases hb : run c between with
    | none => rw [hb] at h1; cases h1
    | some r =>
      obtain ⟨c2, os⟩ := r
      have h2 := slide_isSome_of_no_delete k rest (c2.Get k true t).1
        (fun y hy => h y (List.mem_cons_of_mem _ hy))
      cases hr : slide k (c2.Get k true t).1 rest with
      | none => rw [hr] at h2; cases h2
      | some r2 => simp [slide, hb, hr]

end Sliding

/-! ## What a lookup leaves alone -/

section Lookups

variable {α κ : Type}

theorem Count_eq_length_keys (c : Cache α κ) : c.Count = c.items.keys.length := by
  simp [Cache.Count, AList.keys, List.keys]

theorem Get_keys (cache : Cache α κ) (k : String) (touch : Bool) (now : Int) :
    (cache.Get k touch now).1.items.keys = cache.items.keys := by
  cases h : cache.items.lookup k with
  | none => rw [Get_of_lookup_none cache k touch now h]
  | some it =>
    cases hx : it.expired now with
    | true => rw [Get_of_expired cache k touch now h hx]
    | false =>
      rw [Get_of_live cache k touch now h hx]
      cases touch
      · rfl
      · exact AList.keys_replace k (it.touch now) cache.items

theorem Get_miss_state (cache : Cache α κ) (k : String) (touch : Bool) (now : Int)
    (h : (cache.Get k touch now).2.2 = false) : (cache.Get k touch now).1 = cache := by
  cases hl : cache.items.lookup k with
  | none => rw [Get_of_lookup_none cache k touch now hl]
  | some it =>
    cases hx : it.expired now with
    | true => rw [Get_of_expired cache k touch now hl hx]
    | false =>
      rw [Get_of_live cache k touch now hl hx] at h
      cases h

theorem run_gets :
    ∀ (ops : List (Int × Op α κ)) (c : Cache α κ), (∀ x ∈ ops, x.2.isGet = true) →
      ∃ c1 outs, run c ops = some (c1, outs) ∧ c1.items.keys = c.items.keys ∧
        ∀ o ∈ outs, o.events = []
  | [], c, _ => ⟨c, [], rfl, rfl, by simp⟩
  | (t, op) :: rest, c, h => by
    have hg := h (t, op) (List.mem_cons_self _ _)
    cases op with
    | get key touch =>
      obtain ⟨c1, outs, h1, h2, h3⟩ := run_gets rest (c.Get key touch t).1
        (fun x hx => h x (List.mem_cons_of_mem _ hx))
      refine ⟨c1, { events := [], result := some (c.Get key touch t).2 } :: outs, ?_, ?_, ?_⟩
      · simp [run, step, h1]
      · rw [h2, Get_keys]
      · intro o ho
        rcases List.mem_cons.1 ho with ho | ho
        · rw [ho]
        · exact h3 o ho
    | set key data ttl cb => simp [Op.isGet] at hg
    | delete key => simp [Op.isGet] at hg
    | cleanAll => simp [Op.isGet] at hg
    | cleanup => simp [Op.isGet] at hg

theorem expired_mono {it : Item α κ} {t t' : Int} (h : it.expired t = true) (ht : t ≤ t') :
    it.expired t' = true := by
  cases he : it.expires with
  | none => simp [Item.expired, he]
  | some e =>
    simp only [Item.expired, he, decide_eq_true_eq] at h ⊢
    omega

theorem step_dead (k : String) (t : Int) (c c1 : Cache α κ) (now : Int) (op : Op α κ)
    (o : Out α κ) (hop : op.sets k = false) (hnow : t ≤ now)
    (hs : step c now op = some (c1, o))
    (hI : ∀ it, c.items.lookup k = some it → it.expired t = true) :
    ∀ it, c1.items.lookup k = some it → it.expired t = true := by
  intro it hit
  cases op with
  | set key data ttl cb =>
    have hne : k ≠ key := by
      intro he; simp [Op.sets, he] at hop
    simp only [step, Option.some.injEq, Prod.mk.injEq] at hs
    rw [← hs.1, Set_lookup_ne c key data ttl cb now hne] at hit
    exact hI it hit
  | get key touch =>
    simp only [step, Option.some.injEq, Prod.mk.injEq] at hs
    rw [← hs.1] at hit
    by_cases hk : k = key
    · subst hk
      cases hl : c.items.lookup k with
      | none =>
        rw [Get_of_lookup_none c k touch now hl, hl] at hit
        cases hit
      | some it0 =>
        have hx := expired_mono (hI it0 hl) hnow
        rw [Get_of_expired c k touch now hl hx] at hit
        exact hI it hit
    · rw [Get_lookup_ne c key touch now hk] at hit
      exact hI it hit
  | delete key =>
    cases hl : c.items.lookup key with
    | none => simp [step, Delete_of_lookup_none c key hl] at hs
    | some it' =>
      simp only [step, Delete_of_lookup_some c key hl, Option.map_some', Option.some.injEq,
        Prod.mk.injEq] at hs
      rw [← hs.1] at hit
      by_cases hk : k = key
      · subst hk
        simp [AList.lookup_erase] at hit
      · simp only [AList.lookup_erase_ne hk] at hit
        exact hI it hit
  | cleanAll =>
    simp only [step, CleanAll_eq, Option.map_some', Option.some.injEq, Prod.mk.injEq] at hs
    rw [← hs.1] at hit
    simp [AList.lookup_empty] at hit
  | cleanup =>
    simp only [step, Option.some.injEq, Prod.mk.injEq] at hs
    rw [← hs.1] at hit
    exact hI it ((lookup_cleanup_eq_some c now k it).1 hit).1

theorem run_dead (k : String) (t : Int) :
    ∀ (ops : List (Int × Op α κ)) (c c1 : Cache α κ) (outs : List (Out α κ)),
      (∀ x ∈ ops, t ≤ x.1 ∧ x.2.sets k = false) → run c ops = some (c1, outs) →
      (∀ it, c.items.lookup k = some it → it.expired t = true) →
      ∀ it, c1.items.lookup k = some it → it.expired t = true
  | [], c, c1, outs, _, hr, hI => by
    simp only [run, Option.some.injEq, Prod.mk.injEq] at hr
    rw [← hr.1]; exact hI
  | (x, op) :: rest, c, c1, outs, hops, hr, hI => by
    cases hs : step c x op with
    | none => simp [run, hs] at hr
    | some r =>
      obtain ⟨c2, o⟩ := r
      cases hr2 : run c2 rest with
      | none => simp [run, hs, hr2] at hr
      | some r2 =>
        obtain ⟨c3, os⟩ := r2
        simp only [run, hs, hr2, Option.map_some', Option.some.injEq, Prod.mk.injEq] at hr
        obtain ⟨h1, h2⟩ := hops (x, op) (List.mem_cons_self _ _)
        have hd := step_dead k t c c2 x op o h2 h1 hs hI
        have hd2 := run_dead k t rest c2 c3 os
          (fun y hy => hops y (List.mem_cons_of_mem _ hy)) hr2 hd
        rw [← hr.1]; exact hd2

theorem step_counter (c c1 : Cache α κ) (now : Int) (op : Op α κ) (o : Out α κ)
    (hs : step c now op = some (c1, o)) :
    c1.counter = c.counter ∨
      ∃ k touch v, op = Op.get k touch ∧ o.result = some (v, true) ∧
        c1.counter = (c.counter + 1) % 2 ^ 64 := by
  cases op with
  | set key data ttl cb =>
    simp only [step, Option.some.injEq, Prod.mk.injEq] at hs
    left; rw [← hs.1]; rfl
  | get key touch =>
    simp only [step, Option.some.injEq, Prod.mk.injEq] at hs
    cases hl : c.items.lookup key with
    | none =>
      left; rw [← hs.1, Get_of_lookup_none c key touch now hl]
    | some it =>
      cases hx : it.expired now with
      | true => left; rw [← hs.1, Get_of_expired c key touch now hl hx]
      | false =>
        right
        refine ⟨key, touch, it.data, rfl, ?_, ?_⟩
        · rw [← hs.2, Get_of_live c key touch now hl hx]
        · rw [← hs.1, Get_of_live c key touch now hl hx]
  | delete key =>
    cases hl : c.items.lookup key with
    | none => simp [step, Delete_of_lookup_none c key hl] at hs
    | some it' =>
      simp only [step, Delete_of_lookup_some c key hl, Option.map_some', Option.some.injEq,
        Prod.mk.injEq] at hs
      left; rw [← hs.1]
  | cleanAll =>
    simp only [step, CleanAll_eq, Option.map_some', Option.some.injEq, Prod.mk.injEq] at hs
    left; rw [← hs.1]
  | cleanup =>
    simp only [step, Option.some.injEq, Prod.mk.injEq] at hs
    left; rw [← hs.1]; rfl

end Lookups

/-! ## The ticker and its sweep passes -/

section Ticker

variable {α κ : Type}

theorem startCleanupTimer_NewCache : (NewCache : Cache α κ).startCleanupTimer = Second := rfl

theorem Running.run_fixed :
    ∀ (ops : List (Int × Op α κ)) (s s1 : Running α κ) (outs : List (Out α κ)),
      Running.run s ops = some (s1, outs) → s1.period = s.period ∧ s1.born = s.born
  | [], s, s1, outs, hr => by
    simp only [Running.run, Option.some.injEq, Prod.mk.injEq] at hr
    rw [← hr.1]; exact ⟨rfl, rfl⟩
  | (t, op) :: rest, s, s1, outs, hr => by
    cases hs : TTLCache.step s.cache t op with
    | none => simp [Running.run, Running.step, hs] at hr
    | some r =>
      cases hr2 : Running.run { s with cache := r.1 } rest with
      | none => simp [Running.run, Running.step, hs, hr2] at hr
      | some r2 =>
        simp only [Running.run, Running.step, hs, hr2, Option.map_some', Option.some.injEq,
          Prod.mk.injEq] at hr
        have ih := Running.run_fixed rest _ r2.1 r2.2 hr2
        rw [← hr.1]; exact ih

theorem mem_ticks {period born till s : Int} (h : s ∈ ticks period born till) :
    0 < period ∧ born + period ≤ s ∧ s ≤ till := by
  unfold ticks at h
  split at h
  · simp at h
  · rename_i hp
    have hpos : 0 < period := by omega
    obtain ⟨i, hi, rfl⟩ := List.mem_map.1 h
    have hi' : ((i : Int) + 1) ≤ (till - born) / period := by
      have := List.mem_range.1 hi
      omega
    have h1 : ((i : Int) + 1) * period ≤ till - born :=
      (Int.le_ediv_iff_mul_le hpos).1 hi'
    have h2 : period ≤ ((i : Int) + 1) * period := by
      have : (1 : Int) ≤ (i : Int) + 1 := by omega
      calc period = 1 * period := (one_mul _).symm
        _ ≤ ((i : Int) + 1) * period := Int.mul_le_mul_of_nonneg_right this (le_of_lt hpos)
    exact ⟨hpos, by omega, by omega⟩

theorem cleanup_of_all_live (c : Cache α κ) (s : Int)
    (h : ∀ e ∈ c.items.entries, e.2.expired s = false) : c.cleanup s = (c, []) := by
  have h1 : (c.cleanup s).1.items = c.items := by
    apply AList.ext
    rw [cleanup_entries, List.filter_eq_self]
    intro e he
    simp [h e he]
  have h2 : (c.cleanup s).2 = [] := by
    rw [cleanup_events]
    have : c.items.entries.filter (fun e => e.2.expired s) = [] := by
      rw [List.filter_eq_nil_iff]
      intro e he
      simp [h e he]
    rw [this]; rfl
  have h3 : (c.cleanup s).1 = c := by
    have hc := cleanup_counter c s
    cases hcs : (c.cleanup s).1 with
    | mk items counter =>
      rw [hcs] at h1 hc
      cases c
      simp only at h1 hc
      rw [h1, hc]
  exact Prod.ext h3 h2

theorem sweeps_of_empty (c : Cache α κ) (h : c.items.entries = []) :
    ∀ T : List Int, sweeps c T = (c, [])
  | [] => rfl
  | s :: rest => by
    have hc : c.cleanup s = (c, []) :=
      cleanup_of_all_live c s (by rw [h]; simp)
    simp only [sweeps, hc, sweeps_of_empty c h rest, List.append_nil]

theorem sweeps_of_all_live (c : Cache α κ) :
    ∀ T : List Int, (∀ s ∈ T, ∀ e ∈ c.items.entries, e.2.expired s = false) →
      sweeps c T = (c, [])
  | [], _ => rfl
  | s :: rest, h => by
    have hc : c.cleanup s = (c, []) :=
      cleanup_of_all_live c s (h s (List.mem_cons_self _ _))
    have ih := sweeps_of_all_live c rest (fun t ht => h t (List.mem_cons_of_mem _ ht))
    simp only [sweeps, hc, ih, List.append_nil]

theorem sweeps_single (c : Cache α κ) (k : String) (it : Item α κ) (d : Int)
    (hent : c.items.entries = [⟨k, it⟩]) (hexp : it.expires = some d) :
    ∀ T : List Int, (∃ s ∈ T, d < s) →
      (sweeps c T).1.Count = 0 ∧ (sweeps c T).2 = fire k it
  | [], h => by simp at h
  | s :: rest, h => by
    by_cases hs : d < s
    · have hx : it.expired s = true := expired_of_lt hexp hs
      have h1 : (c.cleanup s).1.items.entries = [] := by
        rw [cleanup_entries, hent]
        simp [hx]
      have h2 : (c.cleanup s).2 = fire k it := by
        rw [cleanup_events, hent]
        simp [hx, evictions]
      have h3 := sweeps_of_empty (c.cleanup s).1 h1 rest
      refine ⟨?_, ?_⟩
      · simp [sweeps, h3, Cache.Count, h1]
      · simp [sweeps, h3, h2]
    · have hx : it.expired s = false := not_expired_of_le hexp (by omega)
      have hc : c.cleanup s = (c, []) :=
        cleanup_of_all_live c s (by rw [hent]; simpa using hx)
      have hrest : ∃ t ∈ rest, d < t := by
        obtain ⟨t, ht, hdt⟩ := h
        rcases List.mem_cons.1 ht with ht | ht
        · subst ht; exact absurd hdt hs
        · exact ⟨t, ht, hdt⟩
      have ih := sweeps_single c k it d hent hexp rest hrest
      simp only [sweeps, hc, List.nil_append]
      exact ih

theorem timerFold_of_none_short :
    ∀ (l : List (Σ _ : String, Item α κ)) (d : Int), (∀ e ∈ l, Second ≤ e.2.ttl) →
      l.foldl (fun duration e => if e.2.ttl < Second then e.2.ttl else duration) d = d
  | [], _, _ => rfl
  | e :: l, d, h => by
    have he : ¬ e.2.ttl < Second := not_lt.2 (h e (List.mem_cons_self _ _))
    rw [List.foldl_cons, if_neg he]
    exact timerFold_of_none_short l d (fun x hx => h x (List.mem_cons_of_mem _ hx))

theorem minFold_of_none_short :
    ∀ (l : List (Σ _ : String, Item α κ)) (m : Int), m ≤ Second →
      (∀ e ∈ l, Second ≤ e.2.ttl) → l.foldl (fun m e => min m e.2.ttl) m = m
  | [], _, _, _ => rfl
  | e :: l, m, hm, h => by
    have he : m ≤ e.2.ttl := le_trans hm (h e (List.mem_cons_self _ _))
    rw [List.foldl_cons, min_eq_left he]
    exact minFold_of_none_short l m hm (fun x hx => h x (List.mem_cons_of_mem _ hx))

theorem timerFold_eq_minFold :
    ∀ l : List (Σ _ : String, Item α κ),
      l.countP (fun e => decide (e.2.ttl < Second)) ≤ 1 →
      l.foldl (fun duration e => if e.2.ttl < Second then e.2.ttl else duration) Second
        = l.foldl (fun m e => min m e.2.ttl) Second
  | [], _ => rfl
  | e :: l, h => by
    by_cases he : e.2.ttl < Second
    · rw [List.countP_cons_of_pos _ _ (by simpa using he)] at h
      have h0 : l.countP (fun e => decide (e.2.ttl < Second)) = 0 := by omega
      have hnone : ∀ x ∈ l, Second ≤ x.2.ttl := by
        intro x hx
        have := (List.countP_eq_zero.1 h0) x hx
        simpa using this
      rw [List.foldl_cons, List.foldl_cons, if_pos he, min_eq_right (le_of_lt he),
        timerFold_of_none_short l _ hnone, minFold_of_none_short l _ (le_of_lt he) hnone]
    · rw [List.countP_cons_of_neg _ _ (by simpa using he)] at h
      rw [List.foldl_cons, List.foldl_cons, if_neg he, min_eq_left (not_lt.1 he)]
      exact timerFold_eq_minFold l h

theorem minFold_spec :
    ∀ (l : List (Σ _ : String, Item α κ)) (m : Int),
      l.foldl (fun m e => min m e.2.ttl) m ≤ m ∧
        (∀ e ∈ l, l.foldl (fun m e => min m e.2.ttl) m ≤ e.2.ttl) ∧
        (l.foldl (fun m e => min m e.2.ttl) m = m ∨
          ∃ e ∈ l, l.foldl (fun m e => min m e.2.ttl) m = e.2.ttl)
  | [], m => ⟨le_refl _, by simp, Or.inl rfl⟩
  | e :: l, m => by
    obtain ⟨h1, h2, h3⟩ := minFold_spec l (min m e.2.ttl)
    rw [List.foldl_cons]
    refine ⟨le_trans h1 (min_le_left _ _), ?_, ?_⟩
    · intro x hx
      rcases List.mem_cons.1 hx with hx | hx
      · rw [hx]; exact le_trans h1 (min_le_right _ _)
      · exact h2 x hx
    · rcases h3 with h3 | ⟨x, hx, h3⟩
      · rcases min_choice m e.2.ttl with hc | hc
        · left; rw [h3, hc]
        · right; exact ⟨e, List.mem_cons_self _ _, by rw [h3, hc]⟩
      · right; exact ⟨x, List.mem_cons_of_mem _ hx, h3⟩

/-- A map that `NewCache` never hands to `startCleanupTimer`: with the entries visited in
the order `"a"` (300ms), `"b"` (500ms), both below one second, the loop ends on 500ms, the
`ttl` of the last entry visited, while the smallest is 300ms. -/
theorem startCleanupTimer_last_short :
    twoShort.items.entries.map (fun e => (e.1, e.2.ttl))
        = [("a", 300000000), ("b", 500000000)] ∧
      twoShort.startCleanupTimer = 500000000 ∧ twoShort.minTTL = 300000000 := by
  decide

end Ticker

/-! ## Expirations are stamped by the clock -/

section Stamps

variable {α κ : Type}

theorem Stamped.mono {b now : Int} {c : Cache α κ} (h : Stamped b c) (hb : b ≤ now) :
    Stamped now c := by
  intro k it hl
  obtain ⟨τ, h1, h2⟩ := h k it hl
  exact ⟨τ, by omega, h2⟩

theorem Stamped_NewCache (b : Int) : Stamped b (NewCache : Cache α κ) := by
  intro k it hl
  simp [NewCache, AList.lookup_empty] at hl

theorem step_entry (c c1 : Cache α κ) (now : Int) (op : Op α κ) (o : Out α κ)
    (hs : step c now op = some (c1, o)) (k : String) (it it1 : Item α κ)
    (h0 : c.items.lookup k = some it) (h1 : c1.items.lookup k = some it1)
    (hkeep : op.drops k = false) :
    it1 = it ∨ (op = Op.get k true ∧ it.expired now = false ∧ it1 = it.touch now) := by
  cases op with
  | set key data ttl cb =>
    have hne : k ≠ key := by
      intro he; simp [Op.drops, he] at hkeep
    simp only [step, Option.some.injEq, Prod.mk.injEq] at hs
    rw [← hs.1, Set_lookup_ne c key data ttl cb now hne, h0] at h1
    left; cases h1; rfl
  | get key touch =>
    simp only [step, Option.some.injEq, Prod.mk.injEq] at hs
    rw [← hs.1] at h1
    by_cases hk : k = key
    · subst hk
      cases touch with
      | false =>
        rw [Get_no_touch_items, h0] at h1
        left; cases h1; rfl
      | true =>
        cases hx : it.expired now with
        | true =>
          rw [Get_of_expired c k true now h0 hx, h0] at h1
          left; cases h1; rfl
        | false =>
          rw [Get_of_live c k true now h0 hx] at h1
          simp only [if_true] at h1
          rw [lookup_replace_self, h0] at h1
          right
          refine ⟨rfl, rfl, ?_⟩
          cases h1; rfl
    · rw [Get_lookup_ne c key touch now hk, h0] at h1
      left; cases h1; rfl
  | delete key =>
    have hne : k ≠ key := by
      intro he; simp [Op.drops, he] at hkeep
    cases hd : c.items.lookup key with
    | none => simp [step, Delete_of_lookup_none c key hd] at hs
    | some it' =>
      simp only [step, Delete_of_lookup_some c key hd, Option.map_some', Option.some.injEq,
        Prod.mk.injEq] at hs
      rw [← hs.1] at h1
      simp only [AList.lookup_erase_ne hne] at h1
      rw [h0] at h1
      left; cases h1; rfl
  | cleanAll => simp [Op.drops] at hkeep
  | cleanup =>
    simp only [step, Option.some.injEq, Prod.mk.injEq] at hs
    rw [← hs.1] at h1
    have := ((lookup_cleanup_eq_some c now k it1).1 h1).1
    rw [h0] at this
    left; cases this; rfl

theorem step_stamped (b now : Int) (c c1 : Cache α κ) (op : Op α κ) (o : Out α κ)
    (hb : b ≤ now) (hs : step c now op = some (c1, o)) (hst : Stamped b c) :
    Stamped now c1 := by
  intro k it1 h1
  have hold : ∀ it, c.items.lookup k = some it →
      ∃ τ, τ ≤ now ∧ it.expires = some (τ + it.ttl) := fun it h => (hst.mono hb) k it h
  by_cases hd : op.drops k = false
  · cases h0 : c.items.lookup k with
    | none =>
      exfalso
      cases op with
      | set key data ttl cb =>
        have hne : k ≠ key := by
          intro he; simp [Op.drops, he] at hd
        simp only [step, Option.some.injEq, Prod.mk.injEq] at hs
        rw [← hs.1, Set_lookup_ne c key data ttl cb now hne, h0] at h1
        cases h1
      | get key touch =>
        simp only [step, Option.some.injEq, Prod.mk.injEq] at hs
        rw [← hs.1] at h1
        by_cases hk : k = key
        · subst hk
          rw [Get_of_lookup_none c k touch now h0, h0] at h1
          cases h1
        · rw [Get_lookup_ne c key touch now hk, h0] at h1
          cases h1
      | delete key =>
        have hne : k ≠ key := by
          intro he; simp [Op.drops, he] at hd
        cases hl : c.items.lookup key with
        | none => simp [step, Delete_of_lookup_none c key hl] at hs
        | some it' =>
          simp only [step, Delete_of_lookup_some c key hl, Option.map_some',
            Option.some.injEq, Prod.mk.injEq] at hs
          rw [← hs.1] at h1
          simp only [AList.lookup_erase_ne hne] at h1
          rw [h0] at h1
          cases h1
      | cleanAll => simp [Op.drops] at hd
      | cleanup =>
        simp only [step, Option.some.injEq, Prod.mk.injEq] at hs
        rw [← hs.1] at h1
        have := ((lookup_cleanup_eq_some c now k it1).1 h1).1
        rw [h0] at this
        cases this
    | some it =>
      rcases step_entry c c1 now op o hs k it it1 h0 h1 hd with h | ⟨_, _, h⟩
      · rw [h]; exact hold it h0
      · rw [h]; exact ⟨now, le_refl _, rfl⟩
  · cases op with
    | set key data ttl cb =>
      have hk : key = k := by simpa [Op.drops] using hd
      subst hk
      simp only [step, Option.some.injEq, Prod.mk.injEq] at hs
      rw [← hs.1, Set_lookup_self] at h1
      cases h1
      exact ⟨now, le_refl _, rfl⟩
    | get key touch => simp [Op.drops] at hd
    | delete key =>
      have hk : key = k := by simpa [Op.drops] using hd
      subst hk
      cases hl : c.items.lookup key with
      | none => simp [step, Delete_of_lookup_none c key hl] at hs
      | some it' =>
        simp only [step, Delete_of_lookup_some c key hl, Option.map_some',
          Option.some.injEq, Prod.mk.injEq] at hs
        rw [← hs.1] at h1
        simp [AList.lookup_erase] at h1
    | cleanAll =>
      simp only [step, CleanAll_eq, Option.map_some', Option.some.injEq, Prod.mk.injEq] at hs
      rw [← hs.1] at h1
      simp [AList.lookup_empty] at h1
    | cleanup => simp [Op.drops] at hd

theorem run_stamped (now : Int) :
    ∀ (ops : List (Int × Op α κ)) (b : Int) (c c1 : Cache α κ) (outs : List (Out α κ)),
      Stamped b c → b ≤ now → (∀ x ∈ ops, b ≤ x.1 ∧ x.1 ≤ now) →
      (ops.map Prod.fst).Pairwise (· ≤ ·) → run c ops = some (c1, outs) → Stamped now c1
  | [], b, c, c1, outs, hst, hb, _, _, hr => by
    simp only [run, Option.some.injEq, Prod.mk.injEq] at hr
    rw [← hr.1]; exact hst.mono hb
  | (x, op) :: rest, b, c, c1, outs, hst, hb, hops, hp, hr => by
    cases hs : step c x op with
    | none => simp [run, hs] at hr
    | some r =>
      obtain ⟨c2, o⟩ := r
      cases hr2 : run c2 rest with
      | none => simp [run, hs, hr2] at hr
      | some r2 =>
        obtain ⟨c3, os⟩ := r2
        simp only [run, hs, hr2, Option.map_some', Option.some.injEq, Prod.mk.injEq] at hr
        obtain ⟨h1, h2⟩ := hops (x, op) (List.mem_cons_self _ _)
        have hst2 := step_stamped b x c c2 op o h1 hs hst
        simp only [List.map_cons, List.pairwise_cons] at hp
        have hrest : ∀ y ∈ rest, x ≤ y.1 ∧ y.1 ≤ now := fun y hy =>
          ⟨hp.1 y.1 (List.mem_map_of_mem _ hy), (hops y (List.mem_cons_of_mem _ hy)).2⟩
        have := run_stamped now rest x c2 c3 os hst2 h2 hrest hp.2 hr2
        rw [← hr.1]; exact this

theorem run_stamped_NewCache (now : Int) (ops : List (Int × Op α κ)) (c : Cache α κ)
    (outs : List (Out α κ)) (hnow : ∀ x ∈ ops, x.1 ≤ now)
    (hp : (ops.map Prod.fst).Pairwise (· ≤ ·)) (hr : run NewCache ops = some (c, outs)) :
    Stamped now c := by
  cases ops with
  | nil =>
    exact run_stamped now [] now NewCache c outs (Stamped_NewCache now) (le_refl _)
      (by simp) hp hr
  | cons y rest =>
    have hp' := hp
    simp only [List.map_cons, List.pairwise_cons] at hp'
    refine run_stamped now (y :: rest) y.1 NewCache c outs (Stamped_NewCache _)
      (hnow y (List.mem_cons_self _ _)) ?_ hp hr
    intro x hx
    refine ⟨?_, hnow x hx⟩
    rcases List.mem_cons.1 hx with hx | hx
    · rw [hx]
    · exact hp'.1 x.1 (List.mem_map_of_mem _ hx)

end Stamps

/-! ## The ledger balances -/

section Balance

variable {α κ : Type}

theorem evictions_append :
    ∀ l₁ l₂ : List (Σ _ : String, Item α κ),
      evictions (l₁ ++ l₂) = evictions l₁ ++ evictions l₂
  | [], _ => rfl
  | e :: l₁, l₂ => by
    show fire e.1 e.2 ++ evictions (l₁ ++ l₂) = _
    rw [evictions_append l₁ l₂, evictions, List.append_assoc]

theorem map_cb_evictions :
    ∀ l : List (Σ _ : String, Item α κ), (evictions l).map Event.cb = callbacks l
  | [] => rfl
  | e :: l => by
    have ih := map_cb_evictions l
    cases h : e.2.on_evict with
    | none => simp [evictions, callbacks, fire, h] at ih ⊢; exact ih
    | some cb => simp [evictions, callbacks, fire, h] at ih ⊢; exact ih

theorem callbacks_map_ident (l : List (Σ _ : String, Item α κ)) :
    callbacks (l.map ident) = callbacks l := by
  induction l with
  | nil => rfl
  | cons e l ih =>
    simp only [callbacks, List.map_cons, List.filterMap_cons] at ih ⊢
    simp only [ident, ih]

theorem evictions_entryOf (c : Cache α κ) (key : String) {it : Item α κ}
    (h : c.items.lookup key = some it) : evictions (entryOf c key) = fire key it := by
  simp [entryOf, h, evictions]

theorem perm_cons_kerase (k : String) (it : Item α κ) :
    ∀ l : List (Σ _ : String, Item α κ), List.dlookup k l = some it →
      l.Perm (⟨k, it⟩ :: List.kerase k l)
  | [], h => by simp at h
  | e :: l, h => by
    by_cases hk : k = e.1
    · obtain ⟨a, x⟩ := e
      subst hk
      rw [List.dlookup_cons_eq] at h
      cases h
      have hker : List.kerase k (⟨k, it⟩ :: l) = l := List.kerase_cons_eq rfl
      rw [hker]
    · rw [List.dlookup_cons_ne _ _ hk] at h
      have hker : List.kerase k (e :: l) = e :: List.kerase k l := List.kerase_cons_ne hk
      rw [hker]
      exact ((perm_cons_kerase k it l h).cons e).trans (List.Perm.swap _ _ _)

theorem entries_perm_entryOf (c : Cache α κ) (key : String) :
    c.items.entries.Perm (entryOf c key ++ (c.items.erase key).entries) := by
  cases h : c.items.lookup key with
  | none =>
    have hk : key ∉ c.items.entries.keys := by
      have := AList.lookup_eq_none.1 h
      rwa [AList.mem_keys] at this
    show c.items.entries.Perm (entryOf c key ++ List.kerase key c.items.entries)
    simp [entryOf, h, List.kerase_of_not_mem_keys hk]
  | some it =>
    show c.items.entries.Perm (entryOf c key ++ List.kerase key c.items.entries)
    simp only [entryOf, h, List.singleton_append]
    exact perm_cons_kerase key it c.items.entries h

theorem map_ident_kreplace (k : String) (it : Item α κ) (now : Int) :
    ∀ l : List (Σ _ : String, Item α κ), List.dlookup k l = some it →
      (List.kreplace k (it.touch now) l).map ident = l.map ident
  | [], _ => rfl
  | e :: l, h => by
    by_cases hk : k = e.1
    · obtain ⟨a, x⟩ := e
      subst hk
      rw [List.dlookup_cons_eq] at h
      cases h
      have : List.kreplace k (it.touch now) (⟨k, it⟩ :: l) = ⟨k, it.touch now⟩ :: l := by
        simp [List.kreplace, List.lookmap_cons_some]
      rw [this]
      rfl
    · rw [List.dlookup_cons_ne _ _ hk] at h
      have : List.kreplace k (it.touch now) (e :: l)
          = e :: List.kreplace k (it.touch now) l := by
        simp [List.kreplace, List.lookmap_cons_none, hk]
      rw [this, List.map_cons, List.map_cons, map_ident_kreplace k it now l h]

theorem Get_entries_ident (c : Cache α κ) (key : String) (touch : Bool) (now : Int) :
    (c.Get key touch now).1.items.entries.map ident = c.items.entries.map ident := by
  cases h : c.items.lookup key with
  | none => rw [Get_of_lookup_none c key touch now h]
  | some it =>
    cases hx : it.expired now with
    | true => rw [Get_of_expired c key touch now h hx]
    | false =>
      rw [Get_of_live c key touch now h hx]
      cases touch
      · rfl
      · exact map_ident_kreplace key it now c.items.entries h

theorem bag_append (a b : List (Σ _ : String, Item α κ)) : bag (a ++ b) = bag a + bag b := by
  simp [bag, List.map_append]

theorem bag_perm {a b : List (Σ _ : String, Item α κ)} (h : a.Perm b) : bag a = bag b :=
  Multiset.coe_eq_coe.2 (h.map ident)

theorem bag_nil : bag ([] : List (Σ _ : String, Item α κ)) = 0 := rfl

theorem balanced_iff (c : Cache α κ) (l : Ledger α κ) :
    Balanced c l ↔
      (bag l.created = bag c.items.entries + bag l.replaced + bag l.destroyed ∧
        l.trace = evictions l.destroyed) := by
  unfold Balanced
  rw [← bag_append, ← bag_append]
  exact and_congr_left (fun _ => Multiset.coe_eq_coe.symm)

theorem step_balanced (c c1 : Cache α κ) (l : Ledger α κ) (now : Int) (op : Op α κ)
    (o : Out α κ) (hs : step c now op = some (c1, o)) (hb : Balanced c l) :
    Balanced c1 (l.record c now op o) := by
  rw [balanced_iff] at hb ⊢
  obtain ⟨hbag, htr⟩ := hb
  cases op with
  | set key data ttl cb =>
    simp only [step, Option.some.injEq, Prod.mk.injEq] at hs
    have hent : c1.items.entries
        = [⟨key, { data := data, expires := some (now + ttl), ttl := ttl, on_evict := cb }⟩]
          ++ (c.items.erase key).entries := by
      rw [← hs.1]; rfl
    have hsplit := bag_perm (entries_perm_entryOf c key)
    rw [bag_append] at hsplit
    refine ⟨?_, ?_⟩
    · simp only [Ledger.record, bag_append, hent, hbag, hsplit]
      abel
    · simp only [Ledger.record, ← hs.2, htr]
      simp [Cache.Set]
  | get key touch =>
    simp only [step, Option.some.injEq, Prod.mk.injEq] at hs
    have hent : bag c1.items.entries = bag c.items.entries := by
      rw [← hs.1]
      unfold bag
      rw [Get_entries_ident c key touch now]
    refine ⟨?_, ?_⟩
    · simp only [Ledger.record, hent, hbag]
    · simp only [Ledger.record, ← hs.2, htr, List.append_nil]
  | delete key =>
    cases hl : c.items.lookup key with
    | none => simp [step, Delete_of_lookup_none c key hl] at hs
    | some it =>
      simp only [step, Delete_of_lookup_some c key hl, Option.map_some', Option.some.injEq,
        Prod.mk.injEq] at hs
      have hent : c1.items.entries = (c.items.erase key).entries := by
        rw [← hs.1]
      have hsplit := bag_perm (entries_perm_entryOf c key)
      rw [bag_append] at hsplit
      refine ⟨?_, ?_⟩
      · simp only [Ledger.record, bag_append, hent, hbag, hsplit]
        abel
      · simp only [Ledger.record, ← hs.2, htr, evictions_append, evictions_entryOf c key hl]
  | cleanAll =>
    simp only [step, CleanAll_eq, Option.map_some', Option.some.injEq, Prod.mk.injEq] at hs
    have hent : c1.items.entries = [] := by
      rw [← hs.1]; rfl
    refine ⟨?_, ?_⟩
    · simp only [Ledger.record, bag_append, hent, hbag, bag_nil]
      abel
    · simp only [Ledger.record, ← hs.2, htr, evictions_append]
  | cleanup =>
    simp only [step, Option.some.injEq, Prod.mk.injEq] at hs
    have hent : c1.items.entries = c.items.entries.filter (fun e => !e.2.expired now) := by
      rw [← hs.1]; exact cleanup_entries c now
    have hsplit := bag_perm
      (List.filter_append_perm (fun e => e.2.expired now) c.items.entries)
    rw [bag_append] at hsplit
    refine ⟨?_, ?_⟩
    · simp only [Ledger.record, bag_append, hent, hbag, ← hsplit]
      abel
    · simp only [Ledger.record, ← hs.2, htr, evictions_append, cleanup_events]

theorem audit_balanced :
    ∀ (ops : List (Int × Op α κ)) (c c1 : Cache α κ) (l l1 : Ledger α κ),
      Balanced c l → audit c l ops = some (c1, l1) → Balanced c1 l1
  | [], c, c1, l, l1, hb, ha => by
    simp only [audit, Option.some.injEq, Prod.mk.injEq] at ha
    rw [← ha.1, ← ha.2]; exact hb
  | (t, op) :: rest, c, c1, l, l1, hb, ha => by
    cases hs : step c t op with
    | none => simp [audit, hs] at ha
    | some r =>
      obtain ⟨c2, o⟩ := r
      simp only [audit, hs] at ha
      exact audit_balanced rest c2 c1 _ l1 (step_balanced c c2 l t op o hs hb) ha

theorem record_created (l : Ledger α κ) (c : Cache α κ) (t : Int) (op : Op α κ)
    (o : Out α κ) (rest : List (Int × Op α κ)) :
    (l.record c t op o).created ++ setsOf rest = l.created ++ setsOf ((t, op) :: rest) := by
  cases op <;> simp [Ledger.record, setsOf]

theorem audit_run :
    ∀ (ops : List (Int × Op α κ)) (c c1 : Cache α κ) (l l1 : Ledger α κ),
      audit c l ops = some (c1, l1) →
      l1.created = l.created ++ setsOf ops ∧
        ∃ outs, run c ops = some (c1, outs) ∧ l1.trace = l.trace ++ traceOf outs
  | [], c, c1, l, l1, ha => by
    simp only [audit, Option.some.injEq, Prod.mk.injEq] at ha
    rw [← ha.1, ← ha.2]
    exact ⟨by simp [setsOf], [], rfl, by simp [traceOf]⟩
  | (t, op) :: rest, c, c1, l, l1, ha => by
    cases hs : step c t op with
    | none => simp [audit, hs] at ha
    | some r =>
      obtain ⟨c2, o⟩ := r
      simp only [audit, hs] at ha
      obtain ⟨h1, outs, h2, h3⟩ := audit_run rest c2 c1 _ l1 ha
      refine ⟨by rw [h1, record_created], o :: outs, by simp [run, hs, h2], ?_⟩
      rw [h3]
      cases op <;> simp [Ledger.record, traceOf]

theorem run_audit :
    ∀ (ops : List (Int × Op α κ)) (c c1 : Cache α κ) (l : Ledger α κ)
      (outs : List (Out α κ)),
      run c ops = some (c1, outs) → ∃ l1, audit c l ops = some (c1, l1)
  | [], c, c1, l, outs, hr => by
    simp only [run, Option.some.injEq, Prod.mk.injEq] at hr
    exact ⟨l, by simp [audit, hr.1]⟩
  | (t, op) :: rest, c, c1, l, outs, hr => by
    cases hs : step c t op with
    | none => simp [run, hs] at hr
    | some r =>
      obtain ⟨c2, o⟩ := r
      cases hr2 : run c2 rest with
      | none => simp [run, hs, hr2] at hr
      | some r2 =>
        obtain ⟨c3, os⟩ := r2
        simp only [run, hs, hr2, Option.map_some', Option.some.injEq, Prod.mk.injEq] at hr
        obtain ⟨l1, h1⟩ := run_audit rest c2 c3 (l.record c t op o) os hr2
        exact ⟨l1, by simp only [audit, hs, h1, hr.1]⟩

end Balance

/-! ## Lookup right after insertion -/

section Claims

variable {α κ : Type}

/-- C1: for every cache state, key, value, callback, instant `t` and every `ttl > 0`,
`Get(k, false)` performed at `t` right after `Set(k, v, ttl, cb)` performed at `t`
returns `(v, true)`. -/
theorem Get_after_Set (cache : Cache α κ) (k : String) (v : Value α) (cb : Option κ)
    (t ttl : Int) (h : 0 < ttl) :
    ((cache.Set k v ttl cb t).1.Get k false t).2 = (v, true) := by
  have hl := Set_lookup_self cache k v ttl cb t
  have hx : ({ data := v, expires := some (t + ttl), ttl := ttl, on_evict := cb } :
      Item α κ).expired t = false := not_expired_of_le rfl (by omega)
  rw [Get_of_live _ k false t hl hx]

theorem Get_after_Set_witness :
    (0 : Int) < 50000000 ∧
      (((NewCache : Cache Int Nat).Set "a" (Value.other 1) 50000000 none 0).1.Get
        "a" false 0).2 = (Value.other 1, true) :=
  ⟨by decide, Get_after_Set NewCache "a" (Value.other 1) none 0 50000000 (by decide)⟩

/-! ## Deleting a key that is not in the map -/

/-- C2: `Delete` of a key that is not in the map does not complete: `item` is the nil
pointer and reading `item.on_evict` panics. Here the map holds `"a"` and `"b"` is deleted. -/
theorem Delete_absent_key_panics :
    (((NewCache : Cache Int Nat).Set "a" (Value.other 1) 50000000 none 0).1.Delete "b")
      = none := by
  decide

/-! ## Lookup after the time-to-live has elapsed -/

/-- C3, as stated, fails: after `Set("a", 1, 50ms, nil)` at instant 0 and a `Get("a", false)`
at instant 0, the `Get("a", false)` at 80ms is a miss whose data is the string `""`, which is
neither the zero value of `interface{}` nor the integer zero. -/
theorem Get_expired_data_not_zero :
    ∃ c1 : Cache Int Nat,
      run ((NewCache : Cache Int Nat).Set "a" (Value.other 1) 50000000 none 0).1
          [(0, Op.get "a" false)]
        = some (c1, [{ events := [], result := some (Value.other 1, true) }]) ∧
      (c1.Get "a" false 80000000).2.2 = false ∧
      (c1.Get "a" false 80000000).2.1 ≠ Value.zero ∧
      (c1.Get "a" false 80000000).2.1 ≠ Value.other 0 :=
  ⟨(((NewCache : Cache Int Nat).Set "a" (Value.other 1) 50000000 none 0).1.Get "a" false 0).1,
    rfl, by decide, by decide, by decide⟩

/-- C3, amended: after `Set(k, v, ttl, _)` at `t0`, followed by any history of operations
that contains neither `Get(k, true)` nor a further `Set(k, ...)` (lookups without touch,
sweep passes, operations on other keys, at any instants), every `Get(k, touch)` at an instant
`t > t0 + ttl` returns `found = false` together with the empty string `""`, for both values
of `touch`, and leaves the state as it is. -/
theorem Get_after_ttl_not_found (cache : Cache α κ) (k : String) (v : Value α) (ttl : Int)
    (cb : Option κ) (t0 : Int) (ops : List (Int × Op α κ)) (c1 : Cache α κ)
    (outs : List (Out α κ)) (hops : ∀ x ∈ ops, x.2.refreshes k = false)
    (hrun : run (cache.Set k v ttl cb t0).1 ops = some (c1, outs))
    (touch : Bool) (t : Int) (ht : t0 + ttl < t) :
    c1.Get k touch t = (c1, (Value.str "", false)) := by
  have hI : ∀ it, (cache.Set k v ttl cb t0).1.items.lookup k = some it →
      it.expires = some (t0 + ttl) := by
    intro it hit
    rw [Set_lookup_self] at hit
    cases hit; rfl
  have hd := run_deadline k (t0 + ttl) ops _ c1 outs hops hrun hI
  cases hl : c1.items.lookup k with
  | none => exact Get_of_lookup_none c1 k touch t hl
  | some it => exact Get_of_expired c1 k touch t hl (expired_of_lt (hd it hl) ht)

theorem Get_after_ttl_not_found_witness :
    (((NewCache : Cache Int Nat).Set "a" (Value.other 1) 50000000 none 0).1.Get
        "a" false 0).2 = (Value.other 1, true) ∧
      ((((NewCache : Cache Int Nat).Set "a" (Value.other 1) 50000000 none 0).1.Get
        "a" false 0).1.Get "a" false 80000000).2 = (Value.str "", false) :=
  ⟨by decide,
    congrArg Prod.snd
      (Get_after_ttl_not_found (NewCache : Cache Int Nat) "a" (Value.other 1) 50000000 none 0
        [(0, Op.get "a" false)]
        (((NewCache : Cache Int Nat).Set "a" (Value.other 1) 50000000 none 0).1.Get
          "a" false 0).1
        [{ events := [], result := some (Value.other 1, true) }]
        (by decide) rfl false 80000000 (by decide))⟩

/-! ## Lookup of a key that was never inserted -/

/-- C4, as stated, fails: on the empty cache `Get("k", false)` returns the string `""`,
not the zero value (nil) of `interface{}`. -/
theorem Get_missing_data_not_zero :
    ((NewCache : Cache Int Nat).Get "k" false 0).2 = (Value.str "", false) ∧
      ((NewCache : Cache Int Nat).Get "k" false 0).2 ≠ (Value.zero, false) := by
  decide

/-- C4, amended: for a key absent from the map and both values of `touch`, `Get` returns
`("", false)`, the empty string whatever the type of the stored values, and leaves the
state as it is. -/
theorem Get_missing (cache : Cache α κ) (k : String) (touch : Bool) (now : Int)
    (h : cache.items.lookup k = none) :
    cache.Get k touch now = (cache, (Value.str "", false)) :=
  Get_of_lookup_none cache k touch now h

theorem Get_missing_witness :
    (((NewCache : Cache Int Nat).Set "a" (Value.other 1) 50000000 none 0).1.Get "k" true 7).2
      = (Value.str "", false) :=
  congrArg Prod.snd
    (Get_missing ((NewCache : Cache Int Nat).Set "a" (Value.other 1) 50000000 none 0).1
      "k" true 7 (by decide))

/-! ## Sliding expiration -/

/-- C5: after `Set(k, v, ttl, _)` at `t0`, for every sequence of instants
`t0 ≤ t1 ≤ ... ≤ tn` with consecutive gaps below `ttl`, each `Get(k, true)` performed at
`t1, ..., tn` returns `(v, true)`, whatever operations other than `Delete(k)`, `CleanAll`
and `Set(k, ...)` (in particular sweep passes) are performed in between, and `k` is still in
the map at the end; the history runs to completion when none of the operations in between
is a `Delete`. -/
theorem sliding_expiration (cache : Cache α κ) (k : String) (v : Value α) (ttl : Int)
    (cb : Option κ) (t0 : Int) (rounds : List (List (Int × Op α κ) × Int))
    (hsp : Spaced k ttl t0 rounds) :
    (∀ c1 rs, slide k (cache.Set k v ttl cb t0).1 rounds = some (c1, rs) →
      rs = List.replicate rounds.length (v, true) ∧
        ∃ it, c1.items.lookup k = some it ∧ it.data = v) ∧
    ((∀ r ∈ rounds, ∀ x ∈ r.1, x.2.isDelete = false) →
      (slide k (cache.Set k v ttl cb t0).1 rounds).isSome = true) := by
  have hl : Live k v ttl (t0 + ttl) (cache.Set k v ttl cb t0).1 :=
    ⟨_, Set_lookup_self cache k v ttl cb t0, rfl, rfl, t0 + ttl, rfl, le_refl _⟩
  refine ⟨?_, slide_isSome_of_no_delete k rounds _⟩
  intro c1 rs hr
  obtain ⟨h1, d, it, h2, h3, _⟩ := slide_hits k v ttl rounds t0 _ c1 rs hsp hl hr
  exact ⟨h1, it, h2, h3⟩

theorem sliding_expiration_witness :
    (slide "a" ((NewCache : Cache Int Nat).Set "a" (Value.other 1) 50000000 none 0).1
        demoRounds).map Prod.snd = some [(Value.other 1, true), (Value.other 1, true)] ∧
      ((∀ c1 rs,
          slide "a" ((NewCache : Cache Int Nat).Set "a" (Value.other 1) 50000000 none 0).1
            demoRounds = some (c1, rs) →
          rs = List.replicate demoRounds.length (Value.other 1, true) ∧
            ∃ it, c1.items.lookup "a" = some it ∧ it.data = Value.other 1) ∧
        ((∀ r ∈ demoRounds, ∀ x ∈ r.1, x.2.isDelete = false) →
          (slide "a" ((NewCache : Cache Int Nat).Set "a" (Value.other 1) 50000000 none 0).1
            demoRounds).isSome = true)) :=
  ⟨by decide,
    sliding_expiration NewCache "a" (Value.other 1) 50000000 none 0 demoRounds
      (by simp [Spaced, demoRounds, Op.drops])⟩

/-! ## The hit counter -/

/-- C6, as stated, fails: with the counter at `2 ^ 64 - 1`, a `Get` that finds its key
leaves the counter at 0, not at the former value plus 1. -/
theorem Get_hit_counter_wraps :
    (demoFull.Get "a" false 0).2.2 = true ∧
      demoFull.GetCounter = 18446744073709551615 ∧
      (demoFull.Get "a" false 0).1.GetCounter = 0 ∧
      (demoFull.Get "a" false 0).1.GetCounter ≠ demoFull.GetCounter + 1 := by
  decide

/-- C6, amended: if `Get` returns `found = true` then `GetCounter` afterwards is the former
value plus 1 modulo `2 ^ 64` (exactly plus 1 whenever the former value is below
`2 ^ 64 - 1`), and if `Get` returns `found = false` then `GetCounter` is unchanged. -/
theorem Get_counter (cache : Cache α κ) (k : String) (touch : Bool) (now : Int) :
    ((cache.Get k touch now).2.2 = true →
      (cache.Get k touch now).1.GetCounter = (cache.GetCounter + 1) % 2 ^ 64) ∧
    ((cache.Get k touch now).2.2 = true → cache.GetCounter + 1 < 2 ^ 64 →
      (cache.Get k touch now).1.GetCounter = cache.GetCounter + 1) ∧
    ((cache.Get k touch now).2.2 = false →
      (cache.Get k touch now).1.GetCounter = cache.GetCounter) := by
  cases h : cache.items.lookup k with
  | none => simp [Get_of_lookup_none cache k touch now h]
  | some it =>
    cases hx : it.expired now with
    | true => simp [Get_of_expired cache k touch now h hx]
    | false =>
      rw [Get_of_live cache k touch now h hx]
      refine ⟨fun _ => rfl, fun _ hlt => ?_, fun hf => by simp at hf⟩
      exact Nat.mod_eq_of_lt hlt

theorem Get_counter_witness :
    (demo.Get "a" true 0).2.2 = true ∧ (demo.Get "k" true 0).2.2 = false ∧
      (demo.Get "a" true 0).1.GetCounter = demo.GetCounter + 1 ∧
      (demo.Get "k" true 0).1.GetCounter = demo.GetCounter :=
  ⟨by decide, by decide,
    (Get_counter demo "a" true 0).2.1 (by decide) (by decide),
    (Get_counter demo "k" true 0).2.2 (by decide)⟩

/-! ## Deleting a key that is in the map -/

/-- C7: for a key `k` present in the map with entry `it` (expired or not), `Delete(k)` calls
the callback of the entry once with `(k, it.data)` when it is set and calls nothing when it
is nil; afterwards `k` is absent, `Count` has dropped by exactly 1, every other key has the
entry it had, and the hit counter is unchanged. -/
theorem Delete_present (cache : Cache α κ) (k : String) (it : Item α κ)
    (h : cache.items.lookup k = some it) :
    ∃ c1 evs, cache.Delete k = some (c1, evs) ∧
      (∀ cb, it.on_evict = some cb → evs = [{ cb := cb, key := k, data := it.data }]) ∧
      (it.on_evict = none → evs = []) ∧
      c1.items.lookup k = none ∧
      c1.Count + 1 = cache.Count ∧
      (∀ k', k' ≠ k → c1.items.lookup k' = cache.items.lookup k') ∧
      c1.GetCounter = cache.GetCounter := by
  refine ⟨_, _, Delete_of_lookup_some cache k h, fun cb hcb => fire_of_some hcb,
    fun hn => fire_of_none hn, AList.lookup_erase k cache.items,
    length_erase_of_lookup cache.items h, fun k' hk => ?_, rfl⟩
  exact AList.lookup_erase_ne hk

theorem Delete_present_witness :
    ∃ c1 evs, demo.Delete "a" = some (c1, evs) ∧
      (∀ cb, (some 7 : Option Nat) = some cb →
        evs = [{ cb := cb, key := "a", data := Value.other 1 }]) ∧
      ((some 7 : Option Nat) = none → evs = []) ∧
      c1.items.lookup "a" = none ∧
      c1.Count + 1 = demo.Count ∧
      (∀ k', k' ≠ "a" → c1.items.lookup k' = demo.items.lookup k') ∧
      c1.GetCounter = demo.GetCounter :=
  Delete_present demo "a"
    { data := Value.other 1, expires := some 50000000, ttl := 50000000, on_evict := some 7 }
    (by decide)

/-! ## Clearing the cache -/

/-- C8: `CleanAll` completes and leaves the map empty (`Count() = 0`); the calls made with
the key of an entry are exactly one call of that entry's callback with its `(key, data)` when
the callback is set and none when it is nil, and every call made is the call of the callback
of an entry of the map with that entry's key and data. The hit counter is unchanged. -/
theorem CleanAll_clears (cache : Cache α κ) :
    ∃ c1 evs, cache.CleanAll = some (c1, evs) ∧ c1.items = ∅ ∧ c1.Count = 0 ∧
      c1.GetCounter = cache.GetCounter ∧
      (∀ k it cb, cache.items.lookup k = some it → it.on_evict = some cb →
        evs.filter (fun ev => decide (ev.key = k))
          = [{ cb := cb, key := k, data := it.data }]) ∧
      (∀ k it, cache.items.lookup k = some it → it.on_evict = none →
        evs.filter (fun ev => decide (ev.key = k)) = []) ∧
      (∀ ev ∈ evs, ∃ it, cache.items.lookup ev.key = some it ∧
        it.on_evict = some ev.cb ∧ it.data = ev.data) := by
  refine ⟨_, _, CleanAll_eq cache, rfl, rfl, rfl, ?_, ?_, ?_⟩
  · intro k it cb hl hcb
    rw [filter_evictions_of_mem _ cache.items.nodupKeys (mem_entries_of_lookup hl),
      fire_of_some hcb]
  · intro k it hl hcb
    rw [filter_evictions_of_mem _ cache.items.nodupKeys (mem_entries_of_lookup hl),
      fire_of_none hcb]
  · intro ev hev
    obtain ⟨e, he, h1, h2, h3⟩ := mem_evictions.1 hev
    exact ⟨e.2, by rw [h2]; exact lookup_of_mem_entries he, h1, h3.symm⟩

/-! ## One sweep pass -/

/-- C9: one sweep pass at `now` removes exactly the entries expired at `now`: no entry left
is expired, every entry that was not expired is still there unchanged, every expired entry
is gone, `Count` is the number of entries that were not expired, the hit counter is
unchanged, and the calls made with the key of an entry are exactly one call of its callback
with `(key, data)` when the entry was removed and has a callback, and none otherwise; every
call made comes from a removed entry. -/
theorem cleanup_removes_expired (cache : Cache α κ) (now : Int) :
    (∀ k it, (cache.cleanup now).1.items.lookup k = some it →
      it.expired now = false ∧ cache.items.lookup k = some it) ∧
    (∀ k it, cache.items.lookup k = some it → it.expired now = false →
      (cache.cleanup now).1.items.lookup k = some it) ∧
    (∀ k it, cache.items.lookup k = some it → it.expired now = true →
      (cache.cleanup now).1.items.lookup k = none) ∧
    (cache.cleanup now).1.Count
      = (cache.items.entries.filter (fun e => !e.2.expired now)).length ∧
    (cache.cleanup now).1.GetCounter = cache.GetCounter ∧
    (∀ k it cb, cache.items.lookup k = some it → it.expired now = true →
      it.on_evict = some cb →
      (cache.cleanup now).2.filter (fun ev => decide (ev.key = k))
        = [{ cb := cb, key := k, data := it.data }]) ∧
    (∀ k it, cache.items.lookup k = some it → it.expired now = true →
      it.on_evict = none →
      (cache.cleanup now).2.filter (fun ev => decide (ev.key = k)) = []) ∧
    (∀ k it, cache.items.lookup k = some it → it.expired now = false →
      (cache.cleanup now).2.filter (fun ev => decide (ev.key = k)) = []) ∧
    (∀ ev ∈ (cache.cleanup now).2, ∃ it, cache.items.lookup ev.key = some it ∧
      it.expired now = true ∧ it.on_evict = some ev.cb ∧ it.data = ev.data) := by
  refine ⟨?_, ?_, ?_, ?_, rfl, ?_, ?_, ?_, ?_⟩
  · intro k it h
    have := (lookup_cleanup_eq_some cache now k it).1 h
    exact ⟨this.2, this.1⟩
  · intro k it h hx
    exact (lookup_cleanup_eq_some cache now k it).2 ⟨h, hx⟩
  · intro k it h hx
    exact lookup_cleanup_of_expired cache now h hx
  · show (cache.cleanup now).1.items.entries.length = _
    rw [cleanup_entries]
  · intro k it cb h hx hcb
    rw [filter_cleanup_events_of_expired cache now h hx, fire_of_some hcb]
  · intro k it h hx hcb
    rw [filter_cleanup_events_of_expired cache now h hx, fire_of_none hcb]
  · intro k it h hx
    exact filter_cleanup_events_of_live cache now h hx
  · intro ev hev
    exact mem_cleanup_events cache now hev

/-! ## Overwriting a key -/

/-- C10: when `k` is present, `Set(k, v2, ttl2, cb_new)` calls no callback, leaves `Count`,
the hit counter and the entries of all other keys unchanged, and replaces the entry: a
`Delete(k)` that follows calls `cb_new` once with `(k, v2)` when `cb_new` is set and nothing
when it is nil, hence never the callback of the entry that was replaced. -/
theorem Set_overwrites_silently (cache : Cache α κ) (k : String) (old : Item α κ)
    (v2 : Value α) (ttl2 : Int) (cb_new : Option κ) (now : Int)
    (h : cache.items.lookup k = some old) :
    (cache.Set k v2 ttl2 cb_new now).2 = [] ∧
    (cache.Set k v2 ttl2 cb_new now).1.Count = cache.Count ∧
    (cache.Set k v2 ttl2 cb_new now).1.GetCounter = cache.GetCounter ∧
    (∀ k', k' ≠ k →
      (cache.Set k v2 ttl2 cb_new now).1.items.lookup k' = cache.items.lookup k') ∧
    ∃ c2 evs, (cache.Set k v2 ttl2 cb_new now).1.Delete k = some (c2, evs) ∧
      (∀ cb, cb_new = some cb → evs = [{ cb := cb, key := k, data := v2 }]) ∧
      (cb_new = none → evs = []) ∧
      (∀ ev ∈ evs, some ev.cb = cb_new ∧ ev.key = k ∧ ev.data = v2) := by
  refine ⟨rfl, length_insert_of_lookup cache.items _ h, rfl,
    fun k' hk => Set_lookup_ne cache k v2 ttl2 cb_new now hk, ?_⟩
  refine ⟨_, _, Delete_of_lookup_some _ k (Set_lookup_self cache k v2 ttl2 cb_new now),
    fun cb hcb => fire_of_some hcb, fun hn => fire_of_none hn, ?_⟩
  intro ev hev
  obtain ⟨h1, h2, h3⟩ := mem_fire.1 hev
  exact ⟨h1.symm, h2, h3⟩

theorem Set_overwrites_silently_witness :
    (demo.Set "a" (Value.other 5) 10 (some 9) 3).2 = [] ∧
    (demo.Set "a" (Value.other 5) 10 (some 9) 3).1.Count = demo.Count ∧
    (demo.Set "a" (Value.other 5) 10 (some 9) 3).1.GetCounter = demo.GetCounter ∧
    (∀ k', k' ≠ "a" →
      (demo.Set "a" (Value.other 5) 10 (some 9) 3).1.items.lookup k' = demo.items.lookup k') ∧
    ∃ c2 evs, (demo.Set "a" (Value.other 5) 10 (some 9) 3).1.Delete "a" = some (c2, evs) ∧
      (∀ cb, (some 9 : Option Nat) = some cb →
        evs = [{ cb := cb, key := "a", data := Value.other 5 }]) ∧
      ((some 9 : Option Nat) = none → evs = []) ∧
      (∀ ev ∈ evs, some ev.cb = (some 9 : Option Nat) ∧ ev.key = "a" ∧
        ev.data = Value.other 5) :=
  Set_overwrites_silently demo "a"
    { data := Value.other 1, expires := some 50000000, ttl := 50000000, on_evict := some 7 }
    (Value.other 5) 10 (some 9) 3 (by decide)

/-! ## A lookup never evicts -/

/-- C11: `Get` leaves the set of keys of the map, hence `Count`, unchanged and calls no
callback, whatever the key, the touch flag and the instant, even when the entry looked up is
expired; so `Count` includes the entries that are expired but not yet swept: after `Set` of
one key on the empty cache, `Count() = 1` after any number of lookups at any instants. -/
theorem Get_never_evicts (cache : Cache α κ) (k : String) (touch : Bool) (now : Int) :
    (cache.Get k touch now).1.items.keys = cache.items.keys ∧
    (cache.Get k touch now).1.Count = cache.Count ∧
    (∃ c1 o, step cache now (Op.get k touch) = some (c1, o) ∧ o.events = []) ∧
    (∀ (v : Value α) (ttl : Int) (cb : Option κ) (t0 : Int) (ops : List (Int × Op α κ)),
      (∀ x ∈ ops, x.2.isGet = true) →
      ∃ c1 outs, run ((NewCache : Cache α κ).Set k v ttl cb t0).1 ops = some (c1, outs) ∧
        c1.Count = 1 ∧ ∀ o ∈ outs, o.events = []) := by
  refine ⟨Get_keys cache k touch now, ?_, ⟨_, _, rfl, rfl⟩, ?_⟩
  · rw [Count_eq_length_keys, Count_eq_length_keys, Get_keys]
  · intro v ttl cb t0 ops hops
    obtain ⟨c1, outs, h1, h2, h3⟩ := run_gets ops (NewCache.Set k v ttl cb t0).1 hops
    refine ⟨c1, outs, h1, ?_, h3⟩
    rw [Count_eq_length_keys, h2]
    rfl

theorem Get_never_evicts_witness :
    ∃ c1 outs,
      run ((NewCache : Cache Int Nat).Set "a" (Value.other 1) 50000000 (some 7) 0).1
          [(10000000, Op.get "a" true), (90000000, Op.get "a" false),
            (95000000, Op.get "k" true)]
        = some (c1, outs) ∧
      c1.Count = 1 ∧ ∀ o ∈ outs, o.events = [] :=
  (Get_never_evicts (NewCache : Cache Int Nat) "a" false 0).2.2.2
    (Value.other 1) 50000000 (some 7) 0
    [(10000000, Op.get "a" true), (90000000, Op.get "a" false), (95000000, Op.get "k" true)]
    (by decide)

/-! ## The hit counter never decreases, short of wrapping -/

/-- C15, as stated, fails: with the counter at `2 ^ 64 - 1`, a `Get` that finds its key
brings `GetCounter` down to 0. -/
theorem Get_hit_decreases_counter :
    (demoFull.Get "b" true 0).2.2 = true ∧
      (demoFull.Get "b" true 0).1.GetCounter < demoFull.GetCounter := by
  decide

/-- C15, amended: for every operation among `Set`, `Get`, `Delete`, `CleanAll` and a sweep
pass that completes, only a `Get` that returns `found = true` changes `GetCounter`, which
then becomes the former value plus 1 modulo `2 ^ 64`; so `GetCounter` afterwards is greater
than or equal to `GetCounter` before unless the counter was at `2 ^ 64 - 1`, where a
successful `Get` wraps it to 0. (`Count` and `GetCounter` only read the state.) -/
theorem counter_monotone_below_max (c c1 : Cache α κ) (now : Int) (op : Op α κ)
    (o : Out α κ) (hs : step c now op = some (c1, o)) :
    (c1.GetCounter ≠ c.GetCounter →
      ∃ k touch v, op = Op.get k touch ∧ o.result = some (v, true) ∧
        c1.GetCounter = (c.GetCounter + 1) % 2 ^ 64) ∧
    (c.GetCounter + 1 < 2 ^ 64 → c.GetCounter ≤ c1.GetCounter) := by
  rcases step_counter c c1 now op o hs with h | ⟨k, touch, v, h1, h2, h3⟩
  · exact ⟨fun hne => absurd h hne, fun _ => le_of_eq h.symm⟩
  · refine ⟨fun _ => ⟨k, touch, v, h1, h2, h3⟩, fun hlt => ?_⟩
    show c.counter ≤ c1.counter
    rw [h3, Nat.mod_eq_of_lt (show c.counter + 1 < 2 ^ 64 from hlt)]
    exact Nat.le_succ _

theorem counter_monotone_below_max_witness :
    demo.GetCounter ≤ (demo.Get "a" true 0).1.GetCounter :=
  (counter_monotone_below_max demo (demo.Get "a" true 0).1 0 (Op.get "a" true)
    { events := [], result := some (demo.Get "a" true 0).2 } rfl).2 (by decide)

/-! ## The expiration test is strict -/

/-- C18: `expired()` is true exactly when the expiration instant is unset or strictly
earlier than `now`; an entry whose expiration instant equals `now` is live, so `Get` at
`t0 + ttl` after `Set` at `t0` (for `ttl = 0`, at the same instant) returns `found = true`
with the data; an entry set with a negative `ttl` is expired at the instant of insertion. -/
theorem expired_is_strict :
    (∀ (it : Item α κ) (now : Int),
      it.expired now = true ↔ it.expires = none ∨ ∃ e, it.expires = some e ∧ e < now) ∧
    (∀ (cache : Cache α κ) (k : String) (v : Value α) (ttl : Int) (cb : Option κ)
      (t0 : Int) (touch : Bool),
      ((cache.Set k v ttl cb t0).1.Get k touch (t0 + ttl)).2 = (v, true)) ∧
    (∀ (cache : Cache α κ) (k : String) (v : Value α) (ttl : Int) (cb : Option κ)
      (t0 : Int) (touch : Bool), ttl < 0 →
      ((cache.Set k v ttl cb t0).1.Get k touch t0).2.2 = false) := by
  refine ⟨?_, ?_, ?_⟩
  · intro it now
    cases he : it.expires with
    | none => simp [Item.expired, he]
    | some e => simp [Item.expired, he]
  · intro cache k v ttl cb t0 touch
    have hl := Set_lookup_self cache k v ttl cb t0
    rw [Get_of_live _ k touch (t0 + ttl) hl (not_expired_of_le rfl (le_refl _))]
  · intro cache k v ttl cb t0 touch hneg
    have hl := Set_lookup_self cache k v ttl cb t0
    rw [Get_of_expired _ k touch t0 hl (expired_of_lt rfl (by omega))]

theorem expired_is_strict_witness :
    (((NewCache : Cache Int Nat).Set "a" (Value.other 1) 0 none 5).1.Get
        "a" false (5 + 0)).2 = (Value.other 1, true) ∧
      (((NewCache : Cache Int Nat).Set "a" (Value.other 1) (-1) none 5).1.Get
        "a" false 5).2.2 = false :=
  ⟨(expired_is_strict (α := Int) (κ := Nat)).2.1 NewCache "a" (Value.other 1) 0 none 5 false,
    (expired_is_strict (α := Int) (κ := Nat)).2.2 NewCache "a" (Value.other 1) (-1) none 5
      false (by decide)⟩

/-! ## A failed lookup changes nothing -/

/-- C20: if `Get(k, touch)` returns `found = false` the state after it is the state before
it; hence once the entry of `k` is expired at an instant `t`, after any history of operations
at instants from `t` on that contains no `Set(k, ...)`, every `Get(k, true)` at an instant
from `t` on returns `found = false` and again changes nothing. -/
theorem failed_Get_changes_nothing :
    (∀ (c : Cache α κ) (k : String) (touch : Bool) (now : Int),
      (c.Get k touch now).2.2 = false → (c.Get k touch now).1 = c) ∧
    (∀ (c : Cache α κ) (k : String) (it : Item α κ) (t : Int),
      c.items.lookup k = some it → it.expired t = true →
      ∀ (ops : List (Int × Op α κ)) (c1 : Cache α κ) (outs : List (Out α κ)),
        (∀ x ∈ ops, t ≤ x.1 ∧ x.2.sets k = false) → run c ops = some (c1, outs) →
        ∀ t', t ≤ t' →
          (c1.Get k true t').2.2 = false ∧ (c1.Get k true t').1 = c1) := by
  refine ⟨Get_miss_state, ?_⟩
  intro c k it t hl hx ops c1 outs hops hrun t' ht'
  have hI : ∀ it', c.items.lookup k = some it' → it'.expired t = true := by
    intro it' h'
    rw [hl] at h'
    cases h'
    exact hx
  have hd := run_dead k t ops c c1 outs hops hrun hI
  cases hl1 : c1.items.lookup k with
  | none => rw [Get_of_lookup_none c1 k true t' hl1]; exact ⟨rfl, rfl⟩
  | some it1 =>
    rw [Get_of_expired c1 k true t' hl1 (expired_mono (hd it1 hl1) ht')]
    exact ⟨rfl, rfl⟩

theorem failed_Get_changes_nothing_witness :
    ((demo.Get "a" true 60000000).1.Get "a" true 70000000).2.2 = false :=
  ((failed_Get_changes_nothing (α := Int) (κ := Nat)).2 demo "a"
    { data := Value.other 1, expires := some 50000000, ttl := 50000000, on_evict := some 7 }
    60000000 (by decide) (by decide) [(60000000, Op.get "a" true)]
    (demo.Get "a" true 60000000).1
    [{ events := [], result := some (demo.Get "a" true 60000000).2 }]
    (by decide) rfl 70000000 (by decide)).1

/-! ## The period of the cleanup ticker -/

/-- C13: the tick interval that `startCleanupTimer` computes is the smallest time-to-live
among the entries when one is below one second, and one second otherwise (`minTTL`), for the
entries present in the map when it runs: its only call is in `NewCache`, on the map just
created, and there the interval is one second. The same holds on every map in which no
time-to-live is below one second (the interval is one second) and on every map in which at
most one is; `minTTL` is at most one second, at most every time-to-live of the map, and is
one second or the time-to-live of an entry. -/
theorem startCleanupTimer_interval :
    ((NewCache : Cache α κ).startCleanupTimer = (NewCache : Cache α κ).minTTL ∧
      (NewCache : Cache α κ).startCleanupTimer = Second) ∧
    (∀ cache : Cache α κ, (∀ e ∈ cache.items.entries, Second ≤ e.2.ttl) →
      cache.startCleanupTimer = Second ∧ cache.minTTL = Second) ∧
    (∀ cache : Cache α κ,
      cache.items.entries.countP (fun e => decide (e.2.ttl < Second)) ≤ 1 →
      cache.startCleanupTimer = cache.minTTL) ∧
    (∀ cache : Cache α κ, cache.minTTL ≤ Second ∧
      (∀ e ∈ cache.items.entries, cache.minTTL ≤ e.2.ttl) ∧
      (cache.minTTL = Second ∨ ∃ e ∈ cache.items.entries, cache.minTTL = e.2.ttl)) := by
  refine ⟨⟨rfl, rfl⟩, ?_, ?_, ?_⟩
  · intro cache h
    exact ⟨timerFold_of_none_short _ Second h, minFold_of_none_short _ Second (le_refl _) h⟩
  · intro cache h
    exact timerFold_eq_minFold _ h
  · intro cache
    exact minFold_spec _ Second

theorem startCleanupTimer_interval_witness :
    ((NewCache : Cache Int Nat).Set "a" (Value.other 1) 100000000 none 0).1.startCleanupTimer
        = 100000000 ∧
      ((NewCache : Cache Int Nat).Set "a" (Value.other 1) 100000000 none 0).1.minTTL
        = 100000000 ∧
      (NewCache : Cache Int Nat).startCleanupTimer = 1000000000 :=
  ⟨((startCleanupTimer_interval (α := Int) (κ := Nat)).2.2.1
      ((NewCache : Cache Int Nat).Set "a" (Value.other 1) 100000000 none 0).1
      (by decide)).trans (by decide),
    by decide, by decide⟩

/-- C19: `NewCache` gives the empty cache (`Count() = 0`, `GetCounter() = 0`, `Get` of any
key is not found) with a ticker period of exactly one second, and after any history of
operations, whatever the `ttl` passed to `Set`, the period is still one second. -/
theorem NewCache_period_fixed (born : Int) :
    (NewCache : Cache α κ).Count = 0 ∧ (NewCache : Cache α κ).GetCounter = 0 ∧
    (∀ (k : String) (touch : Bool) (now : Int),
      ((NewCache : Cache α κ).Get k touch now).2.2 = false) ∧
    (Running.start born : Running α κ).cache = NewCache ∧
    (Running.start born : Running α κ).period = Second ∧ Second = 1000000000 ∧
    (∀ (ops : List (Int × Op α κ)) (s : Running α κ) (outs : List (Out α κ)),
      Running.run (Running.start born) ops = some (s, outs) → s.period = Second) := by
  refine ⟨rfl, rfl, fun k touch now => rfl, rfl, rfl, rfl, ?_⟩
  intro ops s outs hr
  exact (Running.run_fixed ops _ s outs hr).1

theorem NewCache_period_fixed_witness :
    ∃ (s : Running Int Nat) (outs : List (Out Int Nat)),
      Running.run (Running.start 0)
          [(0, Op.set "a" (Value.other 1) 100000000 none), (5, Op.get "a" true)]
        = some (s, outs) ∧
      s.period = Second ∧ s.cache.startCleanupTimer = 100000000 :=
  ⟨_, _, rfl,
    (NewCache_period_fixed (α := Int) (κ := Nat) 0).2.2.2.2.2.2
      [(0, Op.set "a" (Value.other 1) 100000000 none), (5, Op.get "a" true)] _ _ rfl,
    by decide⟩

/-! ## Timed eviction -/

/-- C14, as stated, fails: on a cache built at instant 0, after `Set("b", 2, 100ms, cb)` at
instant 0 and 150ms of waiting, no tick of the one-second ticker has occurred: `Count()` is
still 1 and the callback has not been called. -/
theorem no_sweep_within_150ms :
    (Running.start 0 : Running Int Nat).period = 1000000000 ∧
      (setAndWait 0 0 150000000 "b" (Value.other 2) 100000000 (some 7) :
        Cache Int Nat × List (Event Int Nat)).1.Count = 1 ∧
      (setAndWait 0 0 150000000 "b" (Value.other 2) 100000000 (some 7) :
        Cache Int Nat × List (Event Int Nat)).2 = [] := by
  decide

/-- C14, amended: on a cache built by `NewCache` at `born`, after `Set(k, v, ttl, cb)` at
`t0` and no other operation, once `wait` has elapsed: if a tick of the ticker fell later
than `t0 + ttl` then `cb` has been called exactly once, with `(k, v)`, and `Count() = 0`; if
every tick since the `Set` fell at `t0 + ttl` or earlier then nothing has been called and
`Count() = 1`. The ticks fall one second or more after `born`, whatever `ttl` is. -/
theorem timed_eviction (born t0 wait : Int) (k : String) (v : Value α) (ttl : Int) (cb : κ) :
    ((∃ s ∈ ticks Second born (t0 + wait), t0 < s ∧ t0 + ttl < s) →
      (setAndWait born t0 wait k v ttl (some cb)).1.Count = 0 ∧
        (setAndWait born t0 wait k v ttl (some cb)).2
          = [{ cb := cb, key := k, data := v }]) ∧
    ((∀ s ∈ ticks Second born (t0 + wait), t0 < s → s ≤ t0 + ttl) →
      (setAndWait born t0 wait k v ttl (some cb)).1.Count = 1 ∧
        (setAndWait born t0 wait k v ttl (some cb)).2 = []) ∧
    (∀ till s, s ∈ ticks (Running.start born : Running α κ).period born till →
      born + Second ≤ s ∧ s ≤ till) := by
  have hent : ((NewCache : Cache α κ).Set k v ttl (some cb) t0).1.items.entries
      = [⟨k, { data := v, expires := some (t0 + ttl), ttl := ttl, on_evict := some cb }⟩] :=
    rfl
  refine ⟨?_, ?_, ?_⟩
  · rintro ⟨s, hs, h1, h2⟩
    have hmem : ∃ s ∈ (ticks Second born (t0 + wait)).filter (fun s => decide (t0 < s)),
        t0 + ttl < s := ⟨s, List.mem_filter.2 ⟨hs, by simpa using h1⟩, h2⟩
    exact sweeps_single _ k _ (t0 + ttl) hent rfl _ hmem
  · intro h
    have hall : ∀ s ∈ (ticks Second born (t0 + wait)).filter (fun s => decide (t0 < s)),
        ∀ e ∈ ((NewCache : Cache α κ).Set k v ttl (some cb) t0).1.items.entries,
          e.2.expired s = false := by
      intro s hs e he
      obtain ⟨hs1, hs2⟩ := List.mem_filter.1 hs
      rw [hent, List.mem_singleton] at he
      subst he
      exact not_expired_of_le rfl (h s hs1 (by simpa using hs2))
    have := sweeps_of_all_live _ _ hall
    exact ⟨by rw [setAndWait]; erw [this]; rfl, by rw [setAndWait]; erw [this]⟩
  · intro till s hs
    have := mem_ticks hs
    exact ⟨this.2.1, this.2.2⟩

theorem timed_eviction_witness :
    (setAndWait 0 0 1000000000 "b" (Value.other 2) 100000000 (some 7) :
        Cache Int Nat × List (Event Int Nat)).1.Count = 0 ∧
      (setAndWait 0 0 1000000000 "b" (Value.other 2) 100000000 (some 7) :
        Cache Int Nat × List (Event Int Nat)).2
        = [{ cb := 7, key := "b", data := Value.other 2 }] :=
  (timed_eviction (α := Int) (κ := Nat) 0 0 1000000000 "b" (Value.other 2) 100000000 7).1
    ⟨1000000000, by decide, by decide, by decide⟩

/-! ## Expiration only moves forward -/

/-- C16: under a non-decreasing clock, in any state reached from the empty cache, an
operation that keeps the entry of `k` in the map (a `Get` with either flag, a `Set` or
`Delete` of another key, a sweep pass that does not remove it) leaves its data, `ttl` and
callback as they were and its expiration instant greater than or equal to what it was; the
expiration changes only when the operation is `Get(k, true)`, by `touch`, which sets it to
`now + ttl`. -/
theorem expiration_moves_forward (ops : List (Int × Op α κ)) (now : Int) (op : Op α κ)
    (hclock : ((ops ++ [(now, op)]).map Prod.fst).Pairwise (· ≤ ·))
    (c c1 : Cache α κ) (outs : List (Out α κ)) (o : Out α κ)
    (hrun : run NewCache ops = some (c, outs)) (hstep : step c now op = some (c1, o))
    (k : String) (it it1 : Item α κ) (h0 : c.items.lookup k = some it)
    (h1 : c1.items.lookup k = some it1) (hkeep : op.drops k = false) :
    it1.data = it.data ∧ it1.ttl = it.ttl ∧ it1.on_evict = it.on_evict ∧
    (∃ e e1, it.expires = some e ∧ it1.expires = some e1 ∧ e ≤ e1) ∧
    (it1.expires ≠ it.expires → op = Op.get k true ∧ it1 = it.touch now) ∧
    (it.touch now).expires = some (now + it.ttl) := by
  simp only [List.map_append, List.map_cons, List.map_nil, List.pairwise_append,
    List.mem_singleton] at hclock
  obtain ⟨hp, _, hle⟩ := hclock
  have hnow : ∀ x ∈ ops, x.1 ≤ now := fun x hx =>
    hle x.1 (List.mem_map_of_mem _ hx) now rfl
  obtain ⟨τ, hτ, he⟩ := run_stamped_NewCache now ops c outs hnow hp hrun k it h0
  rcases step_entry c c1 now op o hstep k it it1 h0 h1 hkeep with h | ⟨hop, _, h⟩
  · subst h
    exact ⟨rfl, rfl, rfl, ⟨_, _, he, he, le_refl _⟩, fun hne => absurd rfl hne, rfl⟩
  · subst h
    refine ⟨rfl, rfl, rfl, ⟨_, _, he, rfl, ?_⟩, fun _ => ⟨hop, rfl⟩, rfl⟩
    omega

theorem expiration_moves_forward_witness :
    ∃ e e1 : Int, (some 50000000 : Option Int) = some e ∧
      (some 60000000 : Option Int) = some e1 ∧ e ≤ e1 :=
  (expiration_moves_forward
    [(0, Op.set "a" (Value.other 1) 50000000 (some 7))] 10000000 (Op.get "a" true)
    (by decide)
    ((NewCache : Cache Int Nat).Set "a" (Value.other 1) 50000000 (some 7) 0).1
    ((((NewCache : Cache Int Nat).Set "a" (Value.other 1) 50000000 (some 7) 0).1).Get
      "a" true 10000000).1
    [{ events := [], result := none }]
    { events := [], result := some (Value.other 1, true) }
    rfl rfl "a"
    { data := Value.other 1, expires := some 50000000, ttl := 50000000, on_evict := some 7 }
    { data := Value.other 1, expires := some 60000000, ttl := 50000000, on_evict := some 7 }
    (by decide) (by decide) (by decide)).2.2.2.1

/-! ## Eviction callbacks over whole histories -/

/-- C12: for every history of `Set`, `Get`, `Delete`, `CleanAll` and sweep passes that runs
from the empty cache without panic (each `Delete` is of a present key), the ledger of the
history has these properties. The entries created by the `Set` operations are, one for one,
those still in the map, those replaced by a later `Set` of their key and those destroyed by
`Delete`, `CleanAll` or a sweep pass. The callback calls made over the whole history are
exactly one call per destroyed entry that has a callback, with the key and data of that
entry. Hence, when the callbacks given to the `Set` operations are pairwise distinct, no
callback is called twice, the callback of each destroyed entry is called with its key and
data, and the callback of a replaced entry or of an entry still in the map is not called. -/
theorem evicted_exactly_once (ops : List (Int × Op α κ)) (c : Cache α κ)
    (outs : List (Out α κ)) (hrun : run NewCache ops = some (c, outs)) :
    ∃ l : Ledger α κ, audit NewCache Ledger.empty ops = some (c, l) ∧
      l.created = setsOf ops ∧
      (l.created.map ident).Perm
        ((c.items.entries ++ l.replaced ++ l.destroyed).map ident) ∧
      traceOf outs = evictions l.destroyed ∧
      ((callbacks (setsOf ops)).Nodup →
        ((traceOf outs).map Event.cb).Nodup ∧
        (∀ e ∈ l.destroyed, ∀ cb, e.2.on_evict = some cb →
          ({ cb := cb, key := e.1, data := e.2.data } : Event α κ) ∈ traceOf outs) ∧
        (∀ e ∈ c.items.entries ++ l.replaced, ∀ cb, e.2.on_evict = some cb →
          cb ∉ (traceOf outs).map Event.cb)) := by
  obtain ⟨l, ha⟩ := run_audit ops NewCache c Ledger.empty outs hrun
  obtain ⟨hcr, outs', hr', htr⟩ := audit_run ops NewCache c Ledger.empty l ha
  rw [hrun] at hr'
  simp only [Option.some.injEq, Prod.mk.injEq, true_and] at hr'
  subst hr'
  have hb0 : Balanced (NewCache : Cache α κ) Ledger.empty := ⟨List.Perm.refl _, rfl⟩
  obtain ⟨hperm, hev⟩ := audit_balanced ops NewCache c Ledger.empty l hb0 ha
  have hcr' : l.created = setsOf ops := by simpa [Ledger.empty] using hcr
  have htr' : l.trace = traceOf outs := by simpa [Ledger.empty] using htr
  rw [htr'] at hev
  refine ⟨l, ha, hcr', hperm, hev, ?_⟩
  intro hnd
  have hcb : (callbacks l.created).Perm
      (callbacks (c.items.entries ++ l.replaced) ++ callbacks l.destroyed) := by
    have := hperm.filterMap (fun e => e.2.on_evict)
    have h1 := callbacks_map_ident l.created
    have h2 := callbacks_map_ident (c.items.entries ++ l.replaced ++ l.destroyed)
    unfold callbacks at h1 h2 ⊢
    rw [h1, h2, List.filterMap_append] at this
    exact this
  rw [← hcr'] at hnd
  have hnd2 := (hcb.nodup_iff).1 hnd
  obtain ⟨_, hD, hdisj⟩ := List.nodup_append.1 hnd2
  refine ⟨?_, ?_, ?_⟩
  · rw [hev, map_cb_evictions]; exact hD
  · intro e he cb hcbe
    rw [hev]
    exact mem_evictions.2 ⟨e, he, hcbe, rfl, rfl⟩
  · intro e he cb hcbe hmem
    rw [hev, map_cb_evictions] at hmem
    have hin : cb ∈ callbacks (c.items.entries ++ l.replaced) :=
      List.mem_filterMap.2 ⟨e, he, hcbe⟩
    exact hdisj hin hmem

theorem evicted_exactly_once_witness :
    ∃ (c : Cache Int Nat) (outs : List (Out Int Nat)),
      run NewCache demoHistory = some (c, outs) ∧
      traceOf outs = [{ cb := 2, key := "a", data := Value.other 2 },
        { cb := 3, key := "b", data := Value.other 3 }] ∧
      c.items.keys = ["c"] ∧
      ∃ l : Ledger Int Nat, audit NewCache Ledger.empty demoHistory = some (c, l) ∧
        l.created = setsOf demoHistory ∧
        (l.created.map ident).Perm
          ((c.items.entries ++ l.replaced ++ l.destroyed).map ident) ∧
        traceOf outs = evictions l.destroyed ∧
        ((callbacks (setsOf demoHistory)).Nodup →
          ((traceOf outs).map Event.cb).Nodup ∧
          (∀ e ∈ l.destroyed, ∀ cb, e.2.on_evict = some cb →
            ({ cb := cb, key := e.1, data := e.2.data } : Event Int Nat) ∈ traceOf outs) ∧
          (∀ e ∈ c.items.entries ++ l.replaced, ∀ cb, e.2.on_evict = some cb →
            cb ∉ (traceOf outs).map Event.cb)) :=
  ⟨_, _, rfl, by decide, by decide, evicted_exactly_once demoHistory _ _ rfl⟩

end Claims

end TTLCache
